import Mathlib

/-!
Verification of the sea-here data-access core: the key-value cache engine
with TTL expiry and LRU eviction (src/data/cache.ts), the species/search/
population repository (src/data/repository.ts), and the exponential
backoff utility (src/utils/backoff.ts).

The embedding models wall-clock time (`Date.now()`) as an explicit `Int`
parameter, the idb-keyval persistent store as an association list of
string keys to cache entries together with a per-operation fault oracle
(a store primitive either performs its update or raises the configured
error, mirroring a failing IndexedDB backend), and JavaScript exceptions
as `Except` values; a `try/catch` in the source becomes a `match` on the
`Except` result.  JSON / JavaScript runtime values are modelled by the
inductive `JVal`.
-/

namespace SeaHere

/-! ### JavaScript runtime values (for the repository layer) -/

/-- Model of an untyped JavaScript value as it appears in this code base:
strings, numbers, booleans, `null`, `undefined`, arrays and plain objects
(association lists of string-keyed fields). -/
inductive JVal where
  | jstr (s : String)
  | jnum (n : Int)
  | jbool (b : Bool)
  | jnull
  | jundef
  | jarr (elems : List JVal)
  | jobj (fields : List (String × JVal))

/-- JavaScript truthiness of a value (`if (v)`):
`null`, `undefined`, `false`, `0` and the empty string are falsy;
every object and array is truthy. -/
def jvalTruthy : JVal → Bool
  | .jnull => false
  | .jundef => false
  | .jbool b => b
  | .jnum n => decide (n ≠ 0)
  | .jstr s => decide (s ≠ "")
  | .jarr _ => true
  | .jobj _ => true

/-- `Array.isArray(v)`. -/
def jvalIsArr : JVal → Bool
  | .jarr _ => true
  | _ => false

/-! ### Association-list primitives

The idb-keyval mock and IndexedDB both behave as a map from string keys to
values; we model the map as an association list with unique keys.  `putKey`
is `Map.set` (update in place, or append a fresh key), `findVal` is
`Map.get`, `delKey` is `Map.delete`. -/

def putKey {β : Type} : List (String × β) → String → β → List (String × β)
  | [], k, v => [(k, v)]
  | p :: rest, k, v => if p.1 = k then (k, v) :: rest else p :: putKey rest k v

def findVal {β : Type} : List (String × β) → String → Option β
  | [], _ => none
  | p :: rest, k => if p.1 = k then some p.2 else findVal rest k

def delKey {β : Type} (l : List (String × β)) (k : String) : List (String × β) :=
  l.filter (fun p => decide (p.1 ≠ k))

/-! ### Cache engine state (src/data/cache.ts) -/

/-- Cache entry structure: `interface CacheEntry` of cache.ts. -/
structure CacheEntry (α : Type) where
  value : α
  expiresAt : Int
  lastAccess : Int
deriving Repr, DecidableEq

/-- Fault oracle for the underlying persistent store: for each primitive
(and, for keyed primitives, for each key) either `none` (the operation
succeeds) or `some e` (the operation raises error `e`). -/
structure Faults where
  keysF : Option String
  getF : String → Option String
  setF : String → Option String
  delF : String → Option String

/-- The reliable store: no primitive ever raises. -/
def Faults.noFaults : Faults :=
  ⟨none, fun _ => none, fun _ => none, fun _ => none⟩

/-- Persistent-store state: the stored entries plus the fault oracle
(the oracle is static configuration and is never mutated). -/
structure St (α : Type) where
  entries : List (String × CacheEntry α)
  faults : Faults

namespace Cache

/-- Cache key prefix to avoid conflicts: `CACHE_PREFIX` of cache.ts. -/
def cacheNs : String := "sea-here-cache:"

/-- `getCacheKey`: prefix a logical key with the namespace token. -/
def getCacheKey (key : String) : String := cacheNs ++ key

/-- `isCacheKey`: `key.startsWith(CACHE_PREFIX)`, expressed on the
underlying character lists. -/
def isCacheKey (key : String) : Bool := cacheNs.data.isPrefixOf key.data

/-- `idb-keyval` `get`: read a key, or raise the configured fault. -/
def idbGet {α : Type} (k : String) (s : St α) : Except String (Option (CacheEntry α)) :=
  match s.faults.getF k with
  | some e => .error e
  | none => .ok (findVal s.entries k)

/-- `idb-keyval` `set`: write a key, or raise the configured fault
(a raising primitive performs no update). -/
def idbSet {α : Type} (k : String) (v : CacheEntry α) (s : St α) : Except String (St α) :=
  match s.faults.setF k with
  | some e => .error e
  | none => .ok { s with entries := putKey s.entries k v }

/-- `idb-keyval` `del`. -/
def idbDel {α : Type} (k : String) (s : St α) : Except String (St α) :=
  match s.faults.delF k with
  | some e => .error e
  | none => .ok { s with entries := delKey s.entries k }

/-- `idb-keyval` `keys`: list all keys of the shared store. -/
def idbKeys {α : Type} (s : St α) : Except String (List String) :=
  match s.faults.keysF with
  | some e => .error e
  | none => .ok (s.entries.map Prod.fst)

/-- The `try` block of cache.ts `get`: look up the namespaced key; absent
keys give `undefined`; an entry whose expiry is past is deleted and gives
`undefined`; otherwise the last-access timestamp is written back and the
stored value returned.  The error component carries the state at the
throw point (JavaScript mutations made before a throw persist). -/
def getAttempt {α : Type} (now : Int) (key : String) (s : St α) :
    Except String (Option α) × St α :=
  let cacheKey := getCacheKey key
  match idbGet cacheKey s with
  | .error e => (.error e, s)
  | .ok none => (.ok none, s)
  | .ok (some entry) =>
    if now > entry.expiresAt then
      match idbDel cacheKey s with
      | .error e => (.error e, s)
      | .ok s1 => (.ok none, s1)
    else
      let entry1 := { entry with lastAccess := now }
      match idbSet cacheKey entry1 s with
      | .error e => (.error e, s)
      | .ok s1 => (.ok (some entry1.value), s1)

/-- cache.ts `get`: the `catch` absorbs any store failure and returns
`undefined` — this operation never throws. -/
def get {α : Type} (now : Int) (key : String) (s : St α) : Option α × St α :=
  match getAttempt now key s with
  | (.ok v, s1) => (v, s1)
  | (.error _, s1) => (none, s1)

/-- cache.ts `set`: write an entry with `expiresAt = now + ttl` and
`lastAccess = now`; the `catch` logs and rethrows, so store failures
propagate to the caller. -/
def set {α : Type} (now : Int) (key : String) (v : α) (ttlMs : Int) (s : St α) :
    Except String Unit × St α :=
  let entry : CacheEntry α := ⟨v, now + ttlMs, now⟩
  match idbSet (getCacheKey key) entry s with
  | .error e => (.error e, s)
  | .ok s1 => (.ok (), s1)

/-- One element of the `entries` array built by `evictLRUIfNeeded`:
`\x7b key, lastAccess, expiresAt \x7d` of cache.ts. -/
structure EvictInfo where
  key : String
  lastAccess : Int
  expiresAt : Int
deriving Repr, DecidableEq

/-- The per-key loop of `evictLRUIfNeeded`: load each cache key; a live
entry is accumulated (with its key and timestamps), an expired entry is
deleted on the spot; store failures abort the whole pass. -/
def collectLive {α : Type} (now : Int) : List String → St α →
    Except String (List EvictInfo) × St α
  | [], s => (.ok [], s)
  | k :: rest, s =>
    match idbGet k s with
    | .error e => (.error e, s)
    | .ok none => collectLive now rest s
    | .ok (some entry) =>
      if now ≤ entry.expiresAt then
        match collectLive now rest s with
        | (.ok infos, s1) => (.ok (⟨k, entry.lastAccess, entry.expiresAt⟩ :: infos), s1)
        | (.error e, s1) => (.error e, s1)
      else
        match idbDel k s with
        | .error e => (.error e, s)
        | .ok s1 => collectLive now rest s1

/-- The deletion loop shared by `evictLRUIfNeeded` and `clear`. -/
def delList {α : Type} : List String → St α → Except String Unit × St α
  | [], s => (.ok (), s)
  | k :: rest, s =>
    match idbDel k s with
    | .error e => (.error e, s)
    | .ok s1 => delList rest s1

/-- cache.ts `evictLRUIfNeeded(maxEntries)`: enumerate namespaced keys;
return immediately if their count is at or below `maxEntries`; otherwise
load every entry (deleting expired ones opportunistically), sort the live
ones ascending by last access (JavaScript sort is stable; any stable sort
computes the same list, here `List.mergeSort`), and delete the oldest
`entries.length - maxEntries`.  The `catch` logs and rethrows. -/
def evictLRUIfNeeded {α : Type} (now : Int) (maxEntries : Nat) (s : St α) :
    Except String Unit × St α :=
  match idbKeys s with
  | .error e => (.error e, s)
  | .ok allKeys =>
    let cacheKeys := allKeys.filter isCacheKey
    if cacheKeys.length ≤ maxEntries then (.ok (), s)
    else
      match collectLive now cacheKeys s with
      | (.error e, s1) => (.error e, s1)
      | (.ok entries, s1) =>
        let sorted := entries.mergeSort (fun a b => decide (a.lastAccess ≤ b.lastAccess))
        let entriesToEvict := entries.length - maxEntries
        if entriesToEvict > 0 then
          delList ((sorted.take entriesToEvict).map (fun i => i.key)) s1
        else (.ok (), s1)

/-- cache.ts `clear`: delete every namespaced key; the `catch` logs and
rethrows. -/
def clear {α : Type} (s : St α) : Except String Unit × St α :=
  match idbKeys s with
  | .error e => (.error e, s)
  | .ok allKeys => delList (allKeys.filter isCacheKey) s

/-- Result of cache.ts `getStats`. -/
structure CacheStats where
  totalEntries : Nat
  expiredEntries : Nat
  validEntries : Nat
deriving Repr, DecidableEq

/-- The counting loop of `getStats`: `(expiredEntries, validEntries)`. -/
def statsLoop {α : Type} (now : Int) : List String → St α → Except String (Nat × Nat)
  | [], _ => .ok (0, 0)
  | k :: rest, s =>
    match idbGet k s with
    | .error e => .error e
    | .ok none => statsLoop now rest s
    | .ok (some entry) =>
      match statsLoop now rest s with
      | .error e => .error e
      | .ok (ex, va) =>
        if now > entry.expiresAt then .ok (ex + 1, va) else .ok (ex, va + 1)

/-- cache.ts `getStats`: counts of namespaced keys, split into expired and
valid; the `catch` returns all-zero stats. -/
def getStats {α : Type} (now : Int) (s : St α) : CacheStats :=
  match idbKeys s with
  | .error _ => ⟨0, 0, 0⟩
  | .ok allKeys =>
    let cacheKeys := allKeys.filter isCacheKey
    match statsLoop now cacheKeys s with
    | .error _ => ⟨0, 0, 0⟩
    | .ok (ex, va) => ⟨cacheKeys.length, ex, va⟩

end Cache

/-! ### Backoff utility (src/utils/backoff.ts) -/

/-- A JavaScript value thrown by a failing operation: either a genuine
`Error` object carrying a message, or any other value (identified by its
`String(value)` representation). -/
inductive ThrownVal where
  | errObj (msg : String)
  | nonErr (str : String)
deriving Repr, DecidableEq

/-- `error instanceof Error ? error : new Error(String(error))`. -/
def coerceToError : ThrownVal → ThrownVal
  | .errObj m => .errObj m
  | .nonErr s => .errObj s

/-- The retry loop of `withBackoff`, indexed by the current `attempt`
number and the number of attempts still allowed after this one
(`maxRetries - attempt`).  The operation is modelled as a function from
the attempt number to its outcome.  Returns the final outcome, the number
of invocations performed, and the list of delays slept (in order). -/
def backoffAux {T : Type} (op : Nat → Except ThrownVal T) (baseDelayMs maxDelayMs : Nat) :
    Nat → Nat → Except ThrownVal T × Nat × List Nat
  | attempt, 0 =>
    match op attempt with
    | .ok v => (.ok v, 1, [])
    | .error e => (.error (coerceToError e), 1, [])
  | attempt, remaining + 1 =>
    match op attempt with
    | .ok v => (.ok v, 1, [])
    | .error _ =>
      let d := min (baseDelayMs * 2 ^ attempt) maxDelayMs
      match backoffAux op baseDelayMs maxDelayMs (attempt + 1) remaining with
      | (res, n, ds) => (res, n + 1, d :: ds)

/-- backoff.ts `withBackoff(operation, options)`: run the operation; on
failure wait `min(baseDelayMs * 2 ^ attempt, maxDelayMs)` and retry, up to
`maxRetries` additional attempts (defaults: 2, 100, 2000); after the last
failure rethrow the last error, coerced to an `Error`.  (The waiting
itself has no effect on any state; the delays are reported so that the
schedule can be stated.) -/
def withBackoff {T : Type} (op : Nat → Except ThrownVal T)
    (maxRetries baseDelayMs maxDelayMs : Nat) :
    Except ThrownVal T × Nat × List Nat :=
  backoffAux op baseDelayMs maxDelayMs 0 maxRetries

/-! ### Association-list lemmas -/

theorem findVal_putKey_self {β : Type} (l : List (String × β)) (k : String) (v : β) :
    findVal (putKey l k v) k = some v := by
  induction l with
  | nil => simp [putKey, findVal]
  | cons p rest ih =>
    by_cases h : p.1 = k
    · simp [putKey, h, findVal]
    · simp [putKey, h, findVal, ih]

theorem findVal_putKey_ne {β : Type} (l : List (String × β)) (k k' : String) (v : β)
    (h : k' ≠ k) : findVal (putKey l k v) k' = findVal l k' := by
  have hkk : ¬ k = k' := fun hh => h hh.symm
  induction l with
  | nil => simp [putKey, findVal, hkk]
  | cons p rest ih =>
    by_cases hp : p.1 = k
    · simp only [putKey, if_pos hp, findVal]
      rw [if_neg hkk, if_neg (by rw [hp]; exact hkk)]
    · simp only [putKey, if_neg hp, findVal]
      by_cases hk : p.1 = k'
      · simp [hk]
      · simp [hk, ih]

theorem findVal_filter_of_keep {β : Type} (pred : String × β → Bool)
    (l : List (String × β)) (k : String)
    (h : ∀ p ∈ l, p.1 = k → pred p = true) :
    findVal (l.filter pred) k = findVal l k := by
  induction l with
  | nil => simp [findVal]
  | cons p rest ih =>
    have ihr := ih (fun q hq hqk => h q (List.mem_cons_of_mem _ hq) hqk)
    by_cases hp : p.1 = k
    · rw [List.filter_cons, if_pos (h p (List.mem_cons_self _ _) hp)]
      simp [findVal, hp]
    · rw [List.filter_cons]
      by_cases hpr : pred p = true
      · rw [if_pos hpr]
        simp [findVal, hp, ihr]
      · rw [if_neg hpr]
        simp [findVal, hp, ihr]

theorem findVal_filter_of_drop {β : Type} (pred : String × β → Bool)
    (l : List (String × β)) (k : String)
    (h : ∀ p ∈ l, p.1 = k → pred p = false) :
    findVal (l.filter pred) k = none := by
  induction l with
  | nil => simp [findVal]
  | cons p rest ih =>
    have ihr := ih (fun q hq hqk => h q (List.mem_cons_of_mem _ hq) hqk)
    rw [List.filter_cons]
    by_cases hp : p.1 = k
    · have hf := h p (List.mem_cons_self _ _) hp
      rw [if_neg (by simp [hf])]
      exact ihr
    · by_cases hpr : pred p = true
      · rw [if_pos hpr]
        simp [findVal, hp, ihr]
      · rw [if_neg hpr]
        exact ihr

theorem findVal_delKey_self {β : Type} (l : List (String × β)) (k : String) :
    findVal (delKey l k) k = none :=
  findVal_filter_of_drop _ l k (fun _ _ hp => by simp [hp])

theorem findVal_delKey_ne {β : Type} (l : List (String × β)) (k k' : String)
    (h : k' ≠ k) : findVal (delKey l k) k' = findVal l k' :=
  findVal_filter_of_keep _ l k' (fun p _ hp => by
    simp only [hp, ne_eq, decide_eq_true_eq]
    exact h)

theorem findVal_eq_of_mem_nodup {β : Type} (l : List (String × β)) (p : String × β)
    (hnd : (l.map Prod.fst).Nodup) (hm : p ∈ l) : findVal l p.1 = some p.2 := by
  induction l with
  | nil => simp at hm
  | cons q rest ih =>
    simp only [List.map_cons, List.nodup_cons] at hnd
    rcases List.mem_cons.mp hm with h | h
    · simp [findVal, h]
    · have hne : q.1 ≠ p.1 := by
        intro he
        exact hnd.1 (he ▸ List.mem_map_of_mem Prod.fst h)
      simp [findVal, hne, ih hnd.2 h]

theorem mem_of_findVal {β : Type} (l : List (String × β)) (k : String) (v : β)
    (h : findVal l k = some v) : (k, v) ∈ l := by
  induction l with
  | nil => simp [findVal] at h
  | cons q rest ih =>
    by_cases hq : q.1 = k
    · simp only [findVal, if_pos hq, Option.some.injEq] at h
      exact List.mem_cons.mpr (Or.inl (by rw [← hq, ← h]))
    · simp only [findVal, if_neg hq] at h
      exact List.mem_cons.mpr (Or.inr (ih h))

theorem findVal_eq_none_of_not_mem {β : Type} (l : List (String × β)) (k : String)
    (h : k ∉ l.map Prod.fst) : findVal l k = none := by
  induction l with
  | nil => simp [findVal]
  | cons q rest ih =>
    simp only [List.map_cons, List.mem_cons, not_or] at h
    have hq : ¬ q.1 = k := fun hh => h.1 hh.symm
    simp [findVal, hq, ih h.2]

theorem delKey_eq_self_of_not_mem {β : Type} (l : List (String × β)) (k : String)
    (h : k ∉ l.map Prod.fst) : delKey l k = l := by
  rw [delKey, List.filter_eq_self]
  intro p hp
  simp only [ne_eq, decide_eq_true_eq]
  intro he
  exact h (he ▸ List.mem_map_of_mem Prod.fst hp)

theorem countP_delKey {β : Type} (l : List (String × β)) (k : String) (en : β)
    (hnd : (l.map Prod.fst).Nodup) (hfind : findVal l k = some en)
    (p : String × β → Bool) :
    (delKey l k).countP p + (if p (k, en) then 1 else 0) = l.countP p := by
  induction l with
  | nil => simp [findVal] at hfind
  | cons q rest ih =>
    simp only [List.map_cons, List.nodup_cons] at hnd
    by_cases hq : q.1 = k
    · simp only [findVal, if_pos hq, Option.some.injEq] at hfind
      have hq2 : q = (k, en) := by
        cases q
        simp only at hq hfind
        rw [hq, hfind]
      have hnm : k ∉ rest.map Prod.fst := hq ▸ hnd.1
      have hdel : delKey (q :: rest) k = rest := by
        simp only [delKey, List.filter_cons]
        rw [if_neg (by simp [hq]), ← delKey]
        exact delKey_eq_self_of_not_mem rest k hnm
      rw [hdel, List.countP_cons, hq2]
    · have hdel : delKey (q :: rest) k = q :: delKey rest k := by
        simp only [delKey, List.filter_cons]
        rw [if_pos (by simp [hq])]
      rw [hdel, List.countP_cons, List.countP_cons]
      simp only [findVal, if_neg hq] at hfind
      have := ih hnd.2 hfind
      omega

theorem keys_delKey_sublist {β : Type} (l : List (String × β)) (k : String) :
    ((delKey l k).map Prod.fst).Sublist (l.map Prod.fst) :=
  (List.filter_sublist l).map Prod.fst

theorem keys_delKey_nodup {β : Type} (l : List (String × β)) (k : String)
    (hnd : (l.map Prod.fst).Nodup) : ((delKey l k).map Prod.fst).Nodup :=
  (keys_delKey_sublist l k).nodup hnd

/-! ### Basic cache-engine lemmas -/

theorem isCacheKey_getCacheKey (k : String) :
    Cache.isCacheKey (Cache.getCacheKey k) = true := by
  rw [Cache.isCacheKey, Cache.getCacheKey, String.data_append]
  exact List.isPrefixOf_iff_prefix.mpr (List.prefix_append _ _)

theorem get_of_findVal_none {α : Type} (now : Int) (key : String) (s : St α)
    (hg : s.faults.getF (Cache.getCacheKey key) = none)
    (hfind : findVal s.entries (Cache.getCacheKey key) = none) :
    Cache.get now key s = (none, s) := by
  simp [Cache.get, Cache.getAttempt, Cache.idbGet, hg, hfind]

theorem get_of_expired {α : Type} (now : Int) (key : String) (s : St α)
    (en : CacheEntry α)
    (hg : s.faults.getF (Cache.getCacheKey key) = none)
    (hd : s.faults.delF (Cache.getCacheKey key) = none)
    (hfind : findVal s.entries (Cache.getCacheKey key) = some en)
    (hexp : now > en.expiresAt) :
    Cache.get now key s =
      (none, { s with entries := delKey s.entries (Cache.getCacheKey key) }) := by
  simp [Cache.get, Cache.getAttempt, Cache.idbGet, Cache.idbDel, hg, hd, hfind, hexp]

theorem get_of_live {α : Type} (now : Int) (key : String) (s : St α)
    (en : CacheEntry α)
    (hg : s.faults.getF (Cache.getCacheKey key) = none)
    (hs : s.faults.setF (Cache.getCacheKey key) = none)
    (hfind : findVal s.entries (Cache.getCacheKey key) = some en)
    (hlive : ¬ now > en.expiresAt) :
    Cache.get now key s =
      (some en.value,
       { s with entries :=
           putKey s.entries (Cache.getCacheKey key) { en with lastAccess := now } }) := by
  simp [Cache.get, Cache.getAttempt, Cache.idbGet, Cache.idbSet, hg, hs, hfind, hlive]

theorem set_ok {α : Type} (now : Int) (key : String) (v : α) (ttl : Int) (s : St α)
    (hs : s.faults.setF (Cache.getCacheKey key) = none) :
    Cache.set now key v ttl s =
      (.ok (), { s with entries := putKey s.entries (Cache.getCacheKey key) ⟨v, now + ttl, now⟩ }) := by
  simp [Cache.set, Cache.idbSet, hs]

theorem set_err {α : Type} (now : Int) (key : String) (v : α) (ttl : Int) (s : St α)
    (e : String) (hs : s.faults.setF (Cache.getCacheKey key) = some e) :
    Cache.set now key v ttl s = (.error e, s) := by
  simp [Cache.set, Cache.idbSet, hs]

theorem get_faults_eq {α : Type} (now : Int) (key : String) (s : St α) :
    (Cache.get now key s).2.faults = s.faults := by
  rw [Cache.get, Cache.getAttempt]
  rcases hg : Cache.idbGet (Cache.getCacheKey key) s with e | v
  · simp
  · rcases v with _ | en
    · simp
    · by_cases hexp : now > en.expiresAt
      · simp only [hexp, if_pos]
        rcases hd : Cache.idbDel (Cache.getCacheKey key) s with e | s1
        · simp
        · have : s1.faults = s.faults := by
            rw [Cache.idbDel] at hd
            rcases h : s.faults.delF (Cache.getCacheKey key) with _ | e2 <;> rw [h] at hd
            · simpa using (congrArg St.faults (Except.ok.inj hd)).symm
            · simp at hd
          simp [this]
      · simp only [hexp, if_neg]
        rcases hd : Cache.idbSet (Cache.getCacheKey key) { en with lastAccess := now } s with e | s1
        · simp
        · have : s1.faults = s.faults := by
            rw [Cache.idbSet] at hd
            rcases h : s.faults.setF (Cache.getCacheKey key) with _ | e2 <;> rw [h] at hd
            · simpa using (congrArg St.faults (Except.ok.inj hd)).symm
            · simp at hd
          simp [this]

theorem set_faults_eq {α : Type} (now : Int) (key : String) (v : α) (ttl : Int)
    (s : St α) : (Cache.set now key v ttl s).2.faults = s.faults := by
  rw [Cache.set, Cache.idbSet]
  rcases h : s.faults.setF (Cache.getCacheKey key) with _ | e <;> simp [h]

/-! ### Claim C2: set/get round trip within the TTL -/

/-- C2. For every key `k`, every value `v` and every `ttl`, a `set(k, v,
ttl)` at time `t0` on a reliable store, followed by a `get(k)` at time
`t1` with elapsed time `t1 - t0 < ttl`, returns `v`. -/
theorem c2_set_get_roundtrip {α : Type} (k : String) (v : α) (ttl t0 t1 : Int)
    (s : St α) (hf : s.faults = Faults.noFaults) (ht : t1 - t0 < ttl) :
    (Cache.get t1 k (Cache.set t0 k v ttl s).2).1 = some v := by
  have hset := set_ok t0 k v ttl s (by rw [hf]; rfl)
  rw [hset]
  have hfind : findVal (putKey s.entries (Cache.getCacheKey k) ⟨v, t0 + ttl, t0⟩)
      (Cache.getCacheKey k) = some ⟨v, t0 + ttl, t0⟩ :=
    findVal_putKey_self _ _ _
  have hget := get_of_live t1 k
      { s with entries := putKey s.entries (Cache.getCacheKey k) ⟨v, t0 + ttl, t0⟩ }
      ⟨v, t0 + ttl, t0⟩ (by rw [hf]; rfl) (by rw [hf]; rfl) hfind (by simp; omega)
  rw [hget]

/-- C2 witness: a concrete round trip. -/
theorem c2_witness :
    (Cache.get 5 "k" (Cache.set 0 "k" (7 : Nat) 10 ⟨[], Faults.noFaults⟩).2).1 = some 7 :=
  c2_set_get_roundtrip "k" 7 10 0 5 ⟨[], Faults.noFaults⟩ rfl (by decide)

/-! ### Claim C4: get absorbs store failures, set propagates them -/

/-- C4. Cache `get` never surfaces a store failure: a failing store read
yields "not found" with the state untouched, and more generally whenever
the `try` body of `get` throws, `get` returns "not found"; cache `set`,
by contrast, re-raises the store failure to its caller. -/
theorem c4_get_absorbs_set_propagates {α : Type} (now : Int) (key : String)
    (v : α) (ttl : Int) (s : St α) (e : String) :
    (s.faults.getF (Cache.getCacheKey key) = some e →
       Cache.get now key s = (none, s)) ∧
    (∀ e1, (Cache.getAttempt now key s).1 = .error e1 →
       Cache.get now key s = (none, (Cache.getAttempt now key s).2)) ∧
    (s.faults.setF (Cache.getCacheKey key) = some e →
       Cache.set now key v ttl s = (.error e, s)) := by
  refine ⟨fun hg => ?_, fun e1 he => ?_, fun hs => set_err now key v ttl s e hs⟩
  · simp [Cache.get, Cache.getAttempt, Cache.idbGet, hg]
  · rw [Cache.get]
    rcases ha : Cache.getAttempt now key s with ⟨r, s1⟩
    rw [ha] at he
    simp only at he
    rw [he]

/-- C4 witness: a store whose read primitive fails on the namespaced key;
`get` returns "not found" while `set` raises. -/
theorem c4_witness :
    Cache.get 0 "k" (⟨[], ⟨none, fun _ => some "boom", fun _ => some "boom", fun _ => none⟩⟩ : St Nat)
      = (none, ⟨[], ⟨none, fun _ => some "boom", fun _ => some "boom", fun _ => none⟩⟩) ∧
    Cache.set 0 "k" (1 : Nat) 10
        ⟨[], ⟨none, fun _ => some "boom", fun _ => some "boom", fun _ => none⟩⟩
      = (.error "boom",
         ⟨[], ⟨none, fun _ => some "boom", fun _ => some "boom", fun _ => none⟩⟩) := by
  have h := c4_get_absorbs_set_propagates (α := Nat) 0 "k" 1 10
    ⟨[], ⟨none, fun _ => some "boom", fun _ => some "boom", fun _ => none⟩⟩ "boom"
  exact ⟨h.1 rfl, h.2.2 rfl⟩

/-! ### getStats closed form -/

/-- Flag computed from the entry stored under a key (`false` for an
absent key); used to state the `getStats` counting lemmas. -/
def entryFlag {α : Type} (f : α → Bool) (l : List (String × α)) (k : String) : Bool :=
  match findVal l k with
  | some en => f en
  | none => false

theorem entryFlag_cons_ne {α : Type} (f : α → Bool) (q : String × α)
    (rest : List (String × α)) (k : String) (hne : ¬ q.1 = k) :
    entryFlag f (q :: rest) k = entryFlag f rest k := by
  simp [entryFlag, findVal, hne]

theorem statsLoop_spec {α : Type} (now : Int) (ks : List String) (s : St α)
    (hg : ∀ k ∈ ks, s.faults.getF k = none) :
    Cache.statsLoop now ks s =
      .ok (ks.countP (entryFlag (fun en => decide (now > en.expiresAt)) s.entries),
           ks.countP (entryFlag (fun en => decide (¬ now > en.expiresAt)) s.entries)) := by
  induction ks with
  | nil => simp [Cache.statsLoop]
  | cons k rest ih =>
    have hk := hg k (List.mem_cons_self _ _)
    have ihr := ih (fun q hq => hg q (List.mem_cons_of_mem _ hq))
    rw [Cache.statsLoop, Cache.idbGet, hk]
    rcases hfv : findVal s.entries k with _ | en
    · rw [ihr]
      simp [List.countP_cons, entryFlag, hfv]
    · rw [ihr]
      by_cases hexp : now > en.expiresAt
      · simp [List.countP_cons, entryFlag, hfv, hexp]
      · have hle : now ≤ en.expiresAt := by omega
        simp [List.countP_cons, entryFlag, hfv, hexp, hle]

theorem countP_filterKeys {α : Type} (l : List (String × α))
    (hnd : (l.map Prod.fst).Nodup) (P : String → Bool) (f : α → Bool) :
    ((l.map Prod.fst).filter P).countP (entryFlag f l)
      = l.countP (fun p => P p.1 && f p.2) := by
  induction l with
  | nil => simp
  | cons q rest ih =>
    simp only [List.map_cons, List.nodup_cons] at hnd
    have hcong : ∀ k ∈ (rest.map Prod.fst).filter P,
        (entryFlag f (q :: rest) k = true ↔ entryFlag f rest k = true) := by
      intro k hk
      have hkm : k ∈ rest.map Prod.fst := (List.mem_filter.mp hk).1
      have hne : ¬ q.1 = k := fun he => hnd.1 (he ▸ hkm)
      rw [entryFlag_cons_ne f q rest k hne]
    rw [List.map_cons, List.filter_cons]
    by_cases hP : P q.1 = true
    · rw [if_pos hP, List.countP_cons, List.countP_cons, List.countP_congr hcong,
        ih hnd.2]
      have hhd : entryFlag f (q :: rest) q.1 = f q.2 := by
        simp [entryFlag, findVal]
      rw [hhd, hP]
      simp
    · rw [if_neg hP, List.countP_cons, List.countP_congr hcong, ih hnd.2]
      simp only [Bool.not_eq_true] at hP
      rw [hP]
      simp

theorem getStats_closed {α : Type} (now : Int) (s : St α)
    (hf : s.faults = Faults.noFaults) (hnd : (s.entries.map Prod.fst).Nodup) :
    Cache.getStats now s =
      ⟨s.entries.countP (fun p => Cache.isCacheKey p.1),
       s.entries.countP (fun p => Cache.isCacheKey p.1 && decide (now > p.2.expiresAt)),
       s.entries.countP (fun p => Cache.isCacheKey p.1 && decide (¬ now > p.2.expiresAt))⟩ := by
  have hkeys : Cache.idbKeys s = .ok (s.entries.map Prod.fst) := by
    rw [Cache.idbKeys, hf]
    rfl
  rw [Cache.getStats, hkeys]
  simp only
  rw [statsLoop_spec now _ s (fun k _ => by rw [hf]; rfl)]
  simp only
  have hlen : ((s.entries.map Prod.fst).filter Cache.isCacheKey).length
      = s.entries.countP (fun p => Cache.isCacheKey p.1) := by
    rw [← List.countP_eq_length_filter, List.countP_map]
    rfl
  rw [Cache.CacheStats.mk.injEq]
  exact ⟨hlen,
    countP_filterKeys s.entries hnd Cache.isCacheKey
      (fun en => decide (now > en.expiresAt)),
    countP_filterKeys s.entries hnd Cache.isCacheKey
      (fun en => decide (¬ now > en.expiresAt))⟩

/-! ### Claim C3: get on an expired entry purges it -/

/-- C3. If the cache holds an entry for `key` whose expiry timestamp is in
the past, `get(key)` on a reliable store deletes it and returns "not
found"; afterwards the namespaced key is absent, and `getStats` counts one
fewer total entry and one fewer expired entry (valid count unchanged). -/
theorem c3_get_expired_purges {α : Type} (now : Int) (key : String) (s : St α)
    (en : CacheEntry α)
    (hf : s.faults = Faults.noFaults) (hnd : (s.entries.map Prod.fst).Nodup)
    (hfind : findVal s.entries (Cache.getCacheKey key) = some en)
    (hexp : now > en.expiresAt) :
    (Cache.get now key s).1 = none ∧
    findVal (Cache.get now key s).2.entries (Cache.getCacheKey key) = none ∧
    (Cache.getStats now (Cache.get now key s).2).totalEntries + 1
        = (Cache.getStats now s).totalEntries ∧
    (Cache.getStats now (Cache.get now key s).2).expiredEntries + 1
        = (Cache.getStats now s).expiredEntries ∧
    (Cache.getStats now (Cache.get now key s).2).validEntries
        = (Cache.getStats now s).validEntries := by
  have hget := get_of_expired now key s en (by rw [hf]; rfl) (by rw [hf]; rfl) hfind hexp
  rw [hget]
  have hnd1 : ((delKey s.entries (Cache.getCacheKey key)).map Prod.fst).Nodup :=
    keys_delKey_nodup _ _ hnd
  have hs' := getStats_closed now
      { s with entries := delKey s.entries (Cache.getCacheKey key) } hf hnd1
  have hs0 := getStats_closed now s hf hnd
  refine ⟨rfl, findVal_delKey_self _ _, ?_, ?_, ?_⟩
  · rw [hs', hs0]
    have h := countP_delKey s.entries (Cache.getCacheKey key) en hnd hfind
        (fun p => Cache.isCacheKey p.1)
    simp [isCacheKey_getCacheKey] at h
    simpa using h
  · rw [hs', hs0]
    have h := countP_delKey s.entries (Cache.getCacheKey key) en hnd hfind
        (fun p => Cache.isCacheKey p.1 && decide (now > p.2.expiresAt))
    simp [isCacheKey_getCacheKey, hexp] at h
    simpa using h
  · rw [hs', hs0]
    have h := countP_delKey s.entries (Cache.getCacheKey key) en hnd hfind
        (fun p => Cache.isCacheKey p.1 && decide (¬ now > p.2.expiresAt))
    simp [isCacheKey_getCacheKey, hexp] at h
    simpa using h

/-- C3 witness: a concrete expired entry is purged and drops out of the
stats. -/
theorem c3_witness :
    (Cache.get 5 "k" (⟨[("sea-here-cache:k", ⟨(3 : Nat), 0, 0⟩)], Faults.noFaults⟩ : St Nat)).1
        = none ∧
    findVal (Cache.get 5 "k"
        (⟨[("sea-here-cache:k", ⟨(3 : Nat), 0, 0⟩)], Faults.noFaults⟩ : St Nat)).2.entries
        (Cache.getCacheKey "k") = none ∧
    (Cache.getStats 5 (Cache.get 5 "k"
        (⟨[("sea-here-cache:k", ⟨(3 : Nat), 0, 0⟩)], Faults.noFaults⟩ : St Nat)).2).expiredEntries + 1
      = (Cache.getStats 5
          (⟨[("sea-here-cache:k", ⟨(3 : Nat), 0, 0⟩)], Faults.noFaults⟩ : St Nat)).expiredEntries := by
  have h := c3_get_expired_purges 5 "k"
      (⟨[("sea-here-cache:k", ⟨(3 : Nat), 0, 0⟩)], Faults.noFaults⟩ : St Nat)
      ⟨3, 0, 0⟩ rfl (by decide) (by decide) (by decide)
  exact ⟨h.1, h.2.1, h.2.2.2.1⟩

/-! ### Backoff lemmas and claim C7 -/

theorem backoffAux_calls_pos {T : Type} (op : Nat → Except ThrownVal T)
    (b M attempt remaining : Nat) :
    1 ≤ (backoffAux op b M attempt remaining).2.1 := by
  cases remaining with
  | zero =>
    rw [backoffAux]
    rcases op attempt with e | v <;> simp
  | succ r =>
    rw [backoffAux]
    rcases op attempt with e | v
    · rcases backoffAux op b M (attempt + 1) r with ⟨res, n, ds⟩
      simp
    · simp

theorem backoffAux_calls_le {T : Type} (op : Nat → Except ThrownVal T)
    (b M : Nat) : ∀ (remaining attempt : Nat),
    (backoffAux op b M attempt remaining).2.1 ≤ remaining + 1 := by
  intro remaining
  induction remaining with
  | zero =>
    intro attempt
    rw [backoffAux]
    rcases op attempt with e | v <;> simp
  | succ r ih =>
    intro attempt
    rw [backoffAux]
    rcases op attempt with e | v
    · have := ih (attempt + 1)
      rcases h : backoffAux op b M (attempt + 1) r with ⟨res, n, ds⟩
      rw [h] at this
      simp only at this
      simp only
      omega
    · simp

theorem backoffAux_delays {T : Type} (op : Nat → Except ThrownVal T)
    (b M : Nat) : ∀ (remaining attempt : Nat),
    (backoffAux op b M attempt remaining).2.2
      = (List.range ((backoffAux op b M attempt remaining).2.1 - 1)).map
          (fun i => min (b * 2 ^ (attempt + i)) M) := by
  intro remaining
  induction remaining with
  | zero =>
    intro attempt
    rw [backoffAux]
    rcases op attempt with e | v <;> simp
  | succ r ih =>
    intro attempt
    rw [backoffAux]
    rcases op attempt with e | v
    · have hpos := backoffAux_calls_pos op b M (attempt + 1) r
      have ihr := ih (attempt + 1)
      rcases h : backoffAux op b M (attempt + 1) r with ⟨res, n, ds⟩
      rw [h] at hpos ihr
      simp only at hpos ihr ⊢
      obtain ⟨m, hm⟩ : ∃ m, n = m + 1 := ⟨n - 1, by omega⟩
      subst hm
      simp only [Nat.add_sub_cancel] at ihr ⊢
      rw [ihr, List.range_succ_eq_map, List.map_cons, List.map_map]
      refine congrArg₂ _ (by rw [Nat.add_zero]) ?_
      refine List.map_congr_left ?_
      intro i _
      simp only [Function.comp_apply]
      refine congrArg₂ _ (congrArg _ (congrArg _ ?_)) rfl
      omega
    · simp

theorem backoffAux_first_ok {T : Type} (op : Nat → Except ThrownVal T)
    (b M attempt remaining : Nat) (v : T) (h : op attempt = .ok v) :
    backoffAux op b M attempt remaining = (.ok v, 1, []) := by
  cases remaining with
  | zero => rw [backoffAux, h]
  | succ r => rw [backoffAux, h]

theorem backoffAux_succ_at {T : Type} (op : Nat → Except ThrownVal T)
    (b M : Nat) : ∀ (j remaining attempt : Nat) (v : T), j ≤ remaining →
    (∀ i, attempt ≤ i → i < attempt + j → ∃ e, op i = .error e) →
    op (attempt + j) = .ok v →
    (backoffAux op b M attempt remaining).1 = .ok v ∧
    (backoffAux op b M attempt remaining).2.1 = j + 1 := by
  intro j
  induction j with
  | zero =>
    intro remaining attempt v _ _ hok
    rw [Nat.add_zero] at hok
    rw [backoffAux_first_ok op b M attempt remaining v hok]
    exact ⟨rfl, rfl⟩
  | succ j ih =>
    intro remaining attempt v hle herr hok
    obtain ⟨r, hr⟩ : ∃ r, remaining = r + 1 := ⟨remaining - 1, by omega⟩
    subst hr
    obtain ⟨e, he⟩ := herr attempt (Nat.le_refl _) (by omega)
    rw [backoffAux, he]
    have hok1 : op (attempt + 1 + j) = .ok v := by
      rw [show attempt + 1 + j = attempt + (j + 1) by omega]
      exact hok
    have := ih r (attempt + 1) v (by omega)
        (fun i hi1 hi2 => herr i (by omega) (by omega)) hok1
    rcases h : backoffAux op b M (attempt + 1) r with ⟨res, n, ds⟩
    rw [h] at this
    simp only at this ⊢
    exact ⟨this.1, by omega⟩

theorem backoffAux_all_fail {T : Type} (op : Nat → Except ThrownVal T)
    (b M : Nat) : ∀ (remaining attempt : Nat),
    (∀ i, attempt ≤ i → i ≤ attempt + remaining → ∃ e, op i = .error e) →
    ∃ e, op (attempt + remaining) = .error e ∧
      (backoffAux op b M attempt remaining).1 = .error (coerceToError e) := by
  intro remaining
  induction remaining with
  | zero =>
    intro attempt herr
    obtain ⟨e, he⟩ := herr attempt (Nat.le_refl _) (by omega)
    refine ⟨e, by rw [Nat.add_zero]; exact he, ?_⟩
    rw [backoffAux, he]
  | succ r ih =>
    intro attempt herr
    obtain ⟨e0, he0⟩ := herr attempt (Nat.le_refl _) (by omega)
    obtain ⟨e, he, hres⟩ := ih (attempt + 1)
        (fun i hi1 hi2 => herr i (by omega) (by omega))
    refine ⟨e, by rw [show attempt + (r + 1) = attempt + 1 + r by omega]; exact he, ?_⟩
    rw [backoffAux, he0]
    rcases h : backoffAux op b M (attempt + 1) r with ⟨res, n, ds⟩
    rw [h] at hres
    simp only at hres ⊢
    exact hres

/-- C7. `withBackoff(op, maxRetries, baseDelayMs, maxDelayMs)` invokes the
operation at most `maxRetries + 1` times; it sleeps
`min(baseDelayMs * 2 ^ attempt, maxDelayMs)` before each retry and never
after the final attempt (the delay list has one element per retry, indexed
from attempt 0); if the first `j` attempts fail and attempt `j` succeeds
(with `j ≤ maxRetries`), it returns that success having invoked the
operation exactly `j + 1` times; if every allowed attempt fails, it
re-raises the last attempt's error coerced to an `Error` object, so the
raised failure always carries a message. -/
theorem c7_withBackoff_spec {T : Type} (op : Nat → Except ThrownVal T)
    (maxRetries baseDelayMs maxDelayMs : Nat) :
    (withBackoff op maxRetries baseDelayMs maxDelayMs).2.1 ≤ maxRetries + 1 ∧
    (withBackoff op maxRetries baseDelayMs maxDelayMs).2.2
      = (List.range ((withBackoff op maxRetries baseDelayMs maxDelayMs).2.1 - 1)).map
          (fun i => min (baseDelayMs * 2 ^ i) maxDelayMs) ∧
    (∀ j v, j ≤ maxRetries → (∀ i, i < j → ∃ e, op i = .error e) → op j = .ok v →
       (withBackoff op maxRetries baseDelayMs maxDelayMs).1 = .ok v ∧
       (withBackoff op maxRetries baseDelayMs maxDelayMs).2.1 = j + 1) ∧
    ((∀ i, i ≤ maxRetries → ∃ e, op i = .error e) →
       ∃ e, op maxRetries = .error e ∧
         (withBackoff op maxRetries baseDelayMs maxDelayMs).1
             = .error (coerceToError e) ∧
         ∃ m, coerceToError e = .errObj m) := by
  refine ⟨backoffAux_calls_le op _ _ maxRetries 0, ?_, ?_, ?_⟩
  · have h := backoffAux_delays op baseDelayMs maxDelayMs maxRetries 0
    simpa using h
  · intro j v hj herr hok
    exact backoffAux_succ_at op baseDelayMs maxDelayMs j maxRetries 0 v hj
      (fun i _ hi => herr i (by omega)) (by simpa using hok)
  · intro herr
    obtain ⟨e, he, hres⟩ := backoffAux_all_fail op baseDelayMs maxDelayMs maxRetries 0
        (fun i _ hi => herr i (by omega))
    refine ⟨e, by simpa using he, hres, ?_⟩
    cases e with
    | errObj m => exact ⟨m, rfl⟩
    | nonErr s => exact ⟨s, rfl⟩

/-- C7 witness: an operation failing twice (with a non-Error value) then
succeeding, under the default options, is invoked exactly 3 times, sleeps
100ms then 200ms, and returns the success. -/
theorem c7_witness :
    (withBackoff (fun i => if i < 2 then .error (.nonErr "fail") else .ok (42 : Nat))
        2 100 2000).1 = .ok 42 ∧
    (withBackoff (fun i => if i < 2 then .error (.nonErr "fail") else .ok (42 : Nat))
        2 100 2000).2.1 = 3 ∧
    (withBackoff (fun i => if i < 2 then .error (.nonErr "fail") else .ok (42 : Nat))
        2 100 2000).2.2 = [100, 200] := by
  have h := c7_withBackoff_spec
      (fun i => if i < 2 then .error (.nonErr "fail") else .ok (42 : Nat)) 2 100 2000
  have h3 := h.2.2.1 2 42 (Nat.le_refl 2)
      (fun i hi => ⟨.nonErr "fail", by simp only [if_pos hi]⟩)
      (by simp)
  refine ⟨h3.1, h3.2, ?_⟩
  rw [h.2.1, h3.2]
  rfl

/-! ### Eviction-pass run lemmas -/

/-- The namespaced keys currently present in the store (what the
`evictLRUIfNeeded` / `clear` / `getStats` enumeration computes). -/
def cacheKeysOf {α : Type} (s : St α) : List String :=
  (s.entries.map Prod.fst).filter Cache.isCacheKey

/-- The list that `evictLRUIfNeeded`'s collection loop builds from keys
`ks`: one record per key holding a live entry, in enumeration order. -/
def liveInfos {α : Type} (now : Int) (l : List (String × CacheEntry α))
    (ks : List String) : List Cache.EvictInfo :=
  ks.filterMap (fun k => match findVal l k with
    | some en =>
      if now ≤ en.expiresAt then some ⟨k, en.lastAccess, en.expiresAt⟩ else none
    | none => none)

theorem findVal_isSome_of_mem_keys {β : Type} (l : List (String × β)) (k : String)
    (h : k ∈ l.map Prod.fst) : ∃ v, findVal l k = some v := by
  induction l with
  | nil => simp at h
  | cons q rest ih =>
    by_cases hq : q.1 = k
    · exact ⟨q.2, by simp [findVal, hq]⟩
    · simp only [List.map_cons, List.mem_cons] at h
      rcases h with h | h

      · exact absurd h.symm hq
      · obtain ⟨v, hv⟩ := ih h
        exact ⟨v, by simp [findVal, hq, hv]⟩

theorem snd_eq_of_findVal {β : Type} (l : List (String × β)) (p : String × β)
    (en : β) (hnd : (l.map Prod.fst).Nodup) (hp : p ∈ l)
    (hfind : findVal l p.1 = some en) : p.2 = en := by
  have h := findVal_eq_of_mem_nodup l p hnd hp
  rw [h] at hfind
  exact Option.some.inj hfind

theorem mem_keys_delKey {β : Type} (l : List (String × β)) (k k' : String)
    (hne : k' ≠ k) : k' ∈ (delKey l k).map Prod.fst ↔ k' ∈ l.map Prod.fst := by
  constructor
  · intro h
    obtain ⟨p, hp, hpk⟩ := List.mem_map.mp h
    exact List.mem_map.mpr ⟨p, (List.mem_filter.mp hp).1, hpk⟩
  · intro h
    obtain ⟨p, hp, hpk⟩ := List.mem_map.mp h
    refine List.mem_map.mpr ⟨p, List.mem_filter.mpr ⟨hp, ?_⟩, hpk⟩
    simp only [ne_eq, decide_eq_true_eq]
    rw [hpk]
    exact hne

theorem liveInfos_congr {α : Type} (now : Int)
    (l1 l2 : List (String × CacheEntry α)) (ks : List String)
    (h : ∀ k ∈ ks, findVal l1 k = findVal l2 k) :
    liveInfos now l1 ks = liveInfos now l2 ks := by
  induction ks with
  | nil => rfl
  | cons k rest ih =>
    have ihr := ih (fun q hq => h q (List.mem_cons_of_mem _ hq))
    simp only [liveInfos, List.filterMap_cons] at ihr ⊢
    rw [h k (List.mem_cons_self _ _), ihr]

theorem liveInfos_eq_map {α : Type} (now : Int)
    (l : List (String × CacheEntry α)) (hnd : (l.map Prod.fst).Nodup) :
    liveInfos now l ((l.map Prod.fst).filter Cache.isCacheKey)
      = (l.filter (fun p => Cache.isCacheKey p.1 && decide (now ≤ p.2.expiresAt))).map
          (fun p => (⟨p.1, p.2.lastAccess, p.2.expiresAt⟩ : Cache.EvictInfo)) := by
  induction l with
  | nil => rfl
  | cons q rest ih =>
    simp only [List.map_cons, List.nodup_cons] at hnd
    have hcong : liveInfos now (q :: rest) ((rest.map Prod.fst).filter Cache.isCacheKey)
        = liveInfos now rest ((rest.map Prod.fst).filter Cache.isCacheKey) := by
      refine liveInfos_congr now _ _ _ ?_
      intro k hk
      have hkm : k ∈ rest.map Prod.fst := (List.mem_filter.mp hk).1
      have hne : ¬ q.1 = k := fun he => hnd.1 (he ▸ hkm)
      simp [findVal, hne]
    rw [List.map_cons, List.filter_cons]
    by_cases hP : Cache.isCacheKey q.1 = true
    · rw [if_pos hP]
      have hhd : findVal (q :: rest) q.1 = some q.2 := by simp [findVal]
      by_cases hlive : now ≤ q.2.expiresAt
      · simp only [liveInfos, List.filterMap_cons, hhd, if_pos hlive]
        rw [show (List.filterMap _ ((rest.map Prod.fst).filter Cache.isCacheKey) : List Cache.EvictInfo)
            = liveInfos now (q :: rest) ((rest.map Prod.fst).filter Cache.isCacheKey) from rfl]
        rw [hcong, ih hnd.2, List.filter_cons, if_pos (by simp [hP, hlive]), List.map_cons]
      · simp only [liveInfos, List.filterMap_cons, hhd, if_neg hlive]
        rw [show (List.filterMap _ ((rest.map Prod.fst).filter Cache.isCacheKey) : List Cache.EvictInfo)
            = liveInfos now (q :: rest) ((rest.map Prod.fst).filter Cache.isCacheKey) from rfl]
        rw [hcong, ih hnd.2, List.filter_cons, if_neg (by simp [hlive])]
    · rw [if_neg hP, hcong, ih hnd.2, List.filter_cons, if_neg (by simp [hP])]

theorem collectLive_spec {α : Type} (now : Int) : ∀ (ks : List String) (s : St α),
    (∀ k ∈ ks, s.faults.getF k = none) →
    (∀ k ∈ ks, ∀ en, findVal s.entries k = some en → now > en.expiresAt →
      s.faults.delF k = none) →
    (s.entries.map Prod.fst).Nodup →
    ks.Nodup →
    (∀ k ∈ ks, k ∈ s.entries.map Prod.fst) →
    Cache.collectLive now ks s =
      (.ok (liveInfos now s.entries ks),
       { s with entries := s.entries.filter (fun p => !(decide (p.1 ∈ ks) && decide (now > p.2.expiresAt))) }) := by
  intro ks
  induction ks with
  | nil =>
    intro s hg hd hnd hksnd hsub
    have hid : s.entries.filter
        (fun p => !(decide (p.1 ∈ ([] : List String)) && decide (now > p.2.expiresAt)))
        = s.entries :=
      List.filter_eq_self.mpr (fun p _ => by simp)
    rw [Cache.collectLive]
    rw [hid]
    rfl
  | cons k rest ih =>
    intro s hg hd hnd hksnd hsub
    obtain ⟨en, hen⟩ := findVal_isSome_of_mem_keys s.entries k
        (hsub k (List.mem_cons_self _ _))
    have hget : Cache.idbGet k s = .ok (some en) := by
      rw [Cache.idbGet, hg k (List.mem_cons_self _ _), hen]
    simp only [List.nodup_cons] at hksnd
    rw [Cache.collectLive, hget]
    simp only
    by_cases hlive : now ≤ en.expiresAt
    · rw [if_pos hlive]
      rw [ih s (fun q hq => hg q (List.mem_cons_of_mem _ hq))
        (fun q hq en' hen' hexp' => hd q (List.mem_cons_of_mem _ hq) en' hen' hexp')
        hnd hksnd.2 (fun q hq => hsub q (List.mem_cons_of_mem _ hq))]
      simp only
      have hinfos : liveInfos now s.entries (k :: rest)
          = ⟨k, en.lastAccess, en.expiresAt⟩ :: liveInfos now s.entries rest := by
        simp only [liveInfos, List.filterMap_cons, hen, if_pos hlive]
      rw [hinfos]
      have hfeq : s.entries.filter
            (fun p => !(decide (p.1 ∈ rest) && decide (now > p.2.expiresAt)))
          = s.entries.filter
            (fun p => !(decide (p.1 ∈ k :: rest) && decide (now > p.2.expiresAt))) := by
        refine List.filter_congr ?_
        intro p hp
        by_cases hpk : p.1 = k
        · have hp2 : p.2 = en := snd_eq_of_findVal s.entries p en hnd hp (hpk ▸ hen)
          have hnexp : ¬ now > p.2.expiresAt := by rw [hp2]; omega
          simp [hnexp]
        · simp [List.mem_cons, hpk]
      rw [hfeq]
    · rw [if_neg hlive]
      have hdel : Cache.idbDel k s = .ok { s with entries := delKey s.entries k } := by
        rw [Cache.idbDel, hd k (List.mem_cons_self _ _) en hen (by omega)]
      rw [hdel]
      simp only
      have hnd1 : (((delKey s.entries k)).map Prod.fst).Nodup := keys_delKey_nodup _ _ hnd
      have hsub1 : ∀ q ∈ rest, q ∈ (delKey s.entries k).map Prod.fst := by
        intro q hq
        have hqk : q ≠ k := fun he => hksnd.1 (he ▸ hq)
        exact (mem_keys_delKey s.entries k q hqk).mpr
          (hsub q (List.mem_cons_of_mem _ hq))
      have hd1 : ∀ q ∈ rest, ∀ en', findVal (delKey s.entries k) q = some en' →
          now > en'.expiresAt → s.faults.delF q = none := by
        intro q hq en' hen' hexp'
        have hqk : q ≠ k := fun he => hksnd.1 (he ▸ hq)
        rw [findVal_delKey_ne s.entries k q hqk] at hen'
        exact hd q (List.mem_cons_of_mem _ hq) en' hen' hexp'
      rw [ih { s with entries := delKey s.entries k }
        (fun q hq => hg q (List.mem_cons_of_mem _ hq)) hd1 hnd1 hksnd.2 hsub1]
      have hinfos : liveInfos now (delKey s.entries k) rest
          = liveInfos now s.entries (k :: rest) := by
        have h1 : liveInfos now (delKey s.entries k) rest
            = liveInfos now s.entries rest := by
          refine liveInfos_congr now _ _ _ ?_
          intro q hq
          exact findVal_delKey_ne s.entries k q (fun he => hksnd.1 (he ▸ hq))
        have h2 : liveInfos now s.entries (k :: rest)
            = liveInfos now s.entries rest := by
          simp only [liveInfos, List.filterMap_cons, hen, if_neg hlive]
        rw [h1, h2]
      rw [hinfos]
      have hfeq : (delKey s.entries k).filter
            (fun p => !(decide (p.1 ∈ rest) && decide (now > p.2.expiresAt)))
          = s.entries.filter
            (fun p => !(decide (p.1 ∈ k :: rest) && decide (now > p.2.expiresAt))) := by
        rw [delKey, List.filter_filter]
        refine List.filter_congr ?_
        intro p hp
        by_cases hpk : p.1 = k
        · have hp2 : p.2 = en := snd_eq_of_findVal s.entries p en hnd hp (hpk ▸ hen)
          have hexp : now > p.2.expiresAt := by rw [hp2]; omega
          simp [hpk, hexp]
        · simp [List.mem_cons, hpk]
      rw [hfeq]

theorem delList_spec {α : Type} : ∀ (ks : List String) (s : St α),
    s.faults = Faults.noFaults →
    Cache.delList ks s =
      (.ok (), { s with entries := s.entries.filter (fun p => !decide (p.1 ∈ ks)) }) := by
  intro ks
  induction ks with
  | nil =>
    intro s hf
    have hid : s.entries.filter (fun p => !decide (p.1 ∈ ([] : List String)))
        = s.entries := List.filter_eq_self.mpr (fun p _ => by simp)
    rw [Cache.delList, hid]
  | cons k rest ih =>
    intro s hf
    have hdel : Cache.idbDel k s = .ok { s with entries := delKey s.entries k } := by
      rw [Cache.idbDel, hf]
      rfl
    rw [Cache.delList, hdel]
    simp only
    rw [ih { s with entries := delKey s.entries k } hf]
    have hfeq : (delKey s.entries k).filter (fun p => !decide (p.1 ∈ rest))
        = s.entries.filter (fun p => !decide (p.1 ∈ k :: rest)) := by
      rw [delKey, List.filter_filter]
      refine List.filter_congr ?_
      intro p _
      by_cases hpk : p.1 = k
      · simp [hpk]
      · simp [List.mem_cons, hpk]
    rw [hfeq]

/-- The live records of an eviction pass over state `s`, sorted ascending
by last access. -/
def sortedLive {α : Type} (now : Int) (s : St α) : List Cache.EvictInfo :=
  (liveInfos now s.entries (cacheKeysOf s)).mergeSort
    (fun a b => decide (a.lastAccess ≤ b.lastAccess))

/-- The keys an eviction pass at limit `maxEntries` deletes among the live
entries: the first `liveCount - maxEntries` of the sorted list. -/
def evictedKeys {α : Type} (now : Int) (maxEntries : Nat) (s : St α) : List String :=
  ((sortedLive now s).take
      ((liveInfos now s.entries (cacheKeysOf s)).length - maxEntries)).map
    (fun i => i.key)

/-- Number of live (unexpired) namespaced entries in the store. -/
def liveCache {α : Type} (now : Int) (s : St α) : Nat :=
  s.entries.countP (fun p => Cache.isCacheKey p.1 && decide (now ≤ p.2.expiresAt))

theorem countP_not_mem_keys {β : Type} : ∀ (ks2 : List String) (L : List (String × β)),
    (L.map Prod.fst).Nodup → ks2.Nodup → (∀ x ∈ ks2, x ∈ L.map Prod.fst) →
    L.countP (fun p => !decide (p.1 ∈ ks2)) + ks2.length = L.length := by
  intro ks2
  induction ks2 with
  | nil =>
    intro L _ _ _
    have he : (fun p : String × β => !decide (p.1 ∈ ([] : List String)))
        = fun _ => true := by
      funext p
      simp
    rw [he, List.countP_true]
    simp
  | cons x ks2r ih =>
    intro L hnd hnd2 hsub
    obtain ⟨en, hen⟩ := findVal_isSome_of_mem_keys L x (hsub x (List.mem_cons_self _ _))
    simp only [List.nodup_cons] at hnd2
    have h1 : L.countP (fun p => !decide (p.1 ∈ x :: ks2r))
        = (delKey L x).countP (fun p => !decide (p.1 ∈ ks2r)) := by
      rw [delKey, List.countP_filter]
      refine List.countP_congr (fun p _ => ?_)
      by_cases hpx : p.1 = x
      · simp [hpx, List.mem_cons]
      · simp [hpx, List.mem_cons]
    have hnd' := keys_delKey_nodup L x hnd
    have hsub' : ∀ y ∈ ks2r, y ∈ (delKey L x).map Prod.fst := by
      intro y hy
      exact (mem_keys_delKey L x y (fun he => hnd2.1 (he ▸ hy))).mpr
        (hsub y (List.mem_cons_of_mem _ hy))
    have hlen : (delKey L x).length + 1 = L.length := by
      have h := countP_delKey L x en hnd hen (fun _ => true)
      simpa [List.countP_true] using h
    have hrec := ih (delKey L x) hnd' hnd2.2 hsub'
    rw [h1]
    simp only [List.length_cons]
    omega

theorem evict_run {α : Type} (now : Int) (maxEntries : Nat) (s : St α)
    (hf : s.faults = Faults.noFaults)
    (hnd : (s.entries.map Prod.fst).Nodup)
    (hgt : maxEntries < (cacheKeysOf s).length) :
    Cache.evictLRUIfNeeded now maxEntries s =
      (.ok (),
       { s with entries := (s.entries.filter (fun p => !(decide (p.1 ∈ cacheKeysOf s) && decide (now > p.2.expiresAt)))).filter (fun p => !decide (p.1 ∈ evictedKeys now maxEntries s)) }) := by
  have hkeys : Cache.idbKeys s = .ok (s.entries.map Prod.fst) := by
    rw [Cache.idbKeys, hf]
    rfl
  have hksnd : (cacheKeysOf s).Nodup := hnd.filter _
  have hsub : ∀ k ∈ cacheKeysOf s, k ∈ s.entries.map Prod.fst :=
    fun k hk => (List.mem_filter.mp hk).1
  have hcoll := collectLive_spec now (cacheKeysOf s) s
    (fun k _ => by rw [hf]; rfl) (fun k _ en _ _ => by rw [hf]; rfl) hnd hksnd hsub
  rw [Cache.evictLRUIfNeeded, hkeys]
  simp only
  rw [show (s.entries.map Prod.fst).filter Cache.isCacheKey = cacheKeysOf s from rfl]
  rw [if_neg (by omega)]
  rw [hcoll]
  simp only
  by_cases hev : (liveInfos now s.entries (cacheKeysOf s)).length - maxEntries > 0
  · rw [if_pos hev]
    have hds := delList_spec
      ((((liveInfos now s.entries (cacheKeysOf s)).mergeSort
            (fun a b => decide (a.lastAccess ≤ b.lastAccess))).take
          ((liveInfos now s.entries (cacheKeysOf s)).length - maxEntries)).map
        (fun i => i.key))
      { s with entries := s.entries.filter (fun p => !(decide (p.1 ∈ cacheKeysOf s) && decide (now > p.2.expiresAt))) }
      hf
    rw [hds]
    rfl
  · rw [if_neg hev]
    have hek : evictedKeys now maxEntries s = [] := by
      rw [evictedKeys]
      have : (liveInfos now s.entries (cacheKeysOf s)).length - maxEntries = 0 := by omega
      rw [this, List.take_zero, List.map_nil]
    rw [hek]
    have hid : ∀ (l : List (String × CacheEntry α)),
        l.filter (fun p => !decide (p.1 ∈ ([] : List String))) = l :=
      fun l => List.filter_eq_self.mpr (fun p _ => by simp)
    rw [hid]

/-! ### Claim C1 (corrected): LRU eviction -/

/-- C1 counterexample. The claim "evictLRUIfNeeded deletes every expired
namespaced entry, and is a no-op if the live count is at or below
maxEntries" is false on the code: the function returns immediately when
the TOTAL namespaced key count (expired included) is at or below
`maxEntries`, so a store holding one expired entry is left untouched by
`evictLRUIfNeeded(1)`; and when the total exceeds the limit, expired
entries are deleted even though the live count is within the limit, so
the pass is not a no-op. -/
theorem c1_counterexample :
    ((0 : Int) < 5 ∧
     Cache.evictLRUIfNeeded 5 1
        (⟨[("sea-here-cache:a", ⟨(0 : Nat), 0, 0⟩)], Faults.noFaults⟩ : St Nat)
       = (.ok (), ⟨[("sea-here-cache:a", ⟨(0 : Nat), 0, 0⟩)], Faults.noFaults⟩)) ∧
    (liveCache 5 (⟨[("sea-here-cache:x", ⟨(0 : Nat), 0, 0⟩),
                    ("sea-here-cache:y", ⟨(1 : Nat), 10, 0⟩)], Faults.noFaults⟩ : St Nat) ≤ 1 ∧
     (Cache.evictLRUIfNeeded 5 1
        (⟨[("sea-here-cache:x", ⟨(0 : Nat), 0, 0⟩),
           ("sea-here-cache:y", ⟨(1 : Nat), 10, 0⟩)], Faults.noFaults⟩ : St Nat)).2.entries
       ≠ [("sea-here-cache:x", ⟨(0 : Nat), 0, 0⟩), ("sea-here-cache:y", ⟨(1 : Nat), 10, 0⟩)]) := by
  refine ⟨⟨by decide, ?_⟩, by decide, by decide⟩
  rfl

/-- C1 as amended: on a reliable store with distinct keys,
`evictLRUIfNeeded(maxEntries)` always succeeds; it leaves the store
untouched when the total namespaced key count is at or below `maxEntries`
(even if expired entries remain); when the total exceeds `maxEntries` it
deletes every expired namespaced entry, leaves every non-namespaced entry
in place, retains all live entries whenever the live count is within the
limit, and otherwise deletes exactly `liveCount - maxEntries` live
entries, each deleted live entry having a last-access timestamp at most
that of every retained live entry. -/
theorem c1_evictLRU_amended {α : Type} (now : Int) (maxEntries : Nat) (s : St α)
    (hf : s.faults = Faults.noFaults) (hnd : (s.entries.map Prod.fst).Nodup) :
    (Cache.evictLRUIfNeeded now maxEntries s).1 = .ok () ∧
    ((cacheKeysOf s).length ≤ maxEntries →
      (Cache.evictLRUIfNeeded now maxEntries s).2 = s) ∧
    (maxEntries < (cacheKeysOf s).length →
      (∀ p ∈ s.entries, Cache.isCacheKey p.1 = true → now > p.2.expiresAt →
        findVal (Cache.evictLRUIfNeeded now maxEntries s).2.entries p.1 = none) ∧
      (∀ p ∈ s.entries, Cache.isCacheKey p.1 = false →
        findVal (Cache.evictLRUIfNeeded now maxEntries s).2.entries p.1 = some p.2) ∧
      (liveCache now s ≤ maxEntries →
        ∀ p ∈ s.entries, Cache.isCacheKey p.1 = true → now ≤ p.2.expiresAt →
          findVal (Cache.evictLRUIfNeeded now maxEntries s).2.entries p.1 = some p.2) ∧
      (maxEntries < liveCache now s →
        liveCache now (Cache.evictLRUIfNeeded now maxEntries s).2 = maxEntries ∧
        (∀ p ∈ s.entries, Cache.isCacheKey p.1 = true → now ≤ p.2.expiresAt →
          findVal (Cache.evictLRUIfNeeded now maxEntries s).2.entries p.1 = some p.2 ∨
          findVal (Cache.evictLRUIfNeeded now maxEntries s).2.entries p.1 = none) ∧
        (∀ p ∈ s.entries, ∀ q ∈ s.entries,
          Cache.isCacheKey p.1 = true → now ≤ p.2.expiresAt →
          Cache.isCacheKey q.1 = true → now ≤ q.2.expiresAt →
          findVal (Cache.evictLRUIfNeeded now maxEntries s).2.entries p.1 = none →
          findVal (Cache.evictLRUIfNeeded now maxEntries s).2.entries q.1 = some q.2 →
          p.2.lastAccess ≤ q.2.lastAccess))) := by
  by_cases htot : (cacheKeysOf s).length ≤ maxEntries
  · have hkeys : Cache.idbKeys s = .ok (s.entries.map Prod.fst) := by
      rw [Cache.idbKeys, hf]
      rfl
    have hstop : Cache.evictLRUIfNeeded now maxEntries s = (.ok (), s) := by
      rw [Cache.evictLRUIfNeeded, hkeys]
      simp only
      rw [show (s.entries.map Prod.fst).filter Cache.isCacheKey = cacheKeysOf s from rfl]
      rw [if_pos htot]
    rw [hstop]
    exact ⟨rfl, fun _ => rfl, fun hc => absurd hc (by omega)⟩
  · have hgt : maxEntries < (cacheKeysOf s).length := by omega
    have hrun := evict_run now maxEntries s hf hnd hgt
    rw [hrun]
    simp only
    -- abbreviations
    have hFF : (s.entries.filter (fun p => !(decide (p.1 ∈ cacheKeysOf s) && decide (now > p.2.expiresAt)))).filter (fun p => !decide (p.1 ∈ evictedKeys now maxEntries s))
        = s.entries.filter (fun p => !decide (p.1 ∈ evictedKeys now maxEntries s) && !(decide (p.1 ∈ cacheKeysOf s) && decide (now > p.2.expiresAt))) :=
      List.filter_filter _ _
    have hinfos : liveInfos now s.entries (cacheKeysOf s)
        = (s.entries.filter (fun p => Cache.isCacheKey p.1 && decide (now ≤ p.2.expiresAt))).map
            (fun p => (⟨p.1, p.2.lastAccess, p.2.expiresAt⟩ : Cache.EvictInfo)) :=
      liveInfos_eq_map now s.entries hnd
    have hLnd : ((s.entries.filter (fun p => Cache.isCacheKey p.1 && decide (now ≤ p.2.expiresAt))).map Prod.fst).Nodup :=
      ((List.filter_sublist s.entries).map Prod.fst).nodup hnd
    have hIkeys : (liveInfos now s.entries (cacheKeysOf s)).map (fun i : Cache.EvictInfo => i.key)
        = (s.entries.filter (fun p => Cache.isCacheKey p.1 && decide (now ≤ p.2.expiresAt))).map Prod.fst := by
      rw [hinfos, List.map_map]
      rfl
    have hINd : ((liveInfos now s.entries (cacheKeysOf s)).map (fun i : Cache.EvictInfo => i.key)).Nodup := by
      rw [hIkeys]
      exact hLnd
    have hperm : (sortedLive now s).Perm (liveInfos now s.entries (cacheKeysOf s)) :=
      List.mergeSort_perm _ _
    have hSNd : ((sortedLive now s).map (fun i : Cache.EvictInfo => i.key)).Nodup :=
      ((hperm.map (fun i : Cache.EvictInfo => i.key)).symm).nodup hINd
    have hEvSubSorted : ∀ i ∈ (sortedLive now s).take
        ((liveInfos now s.entries (cacheKeysOf s)).length - maxEntries),
        i ∈ sortedLive now s :=
      fun i hi => (List.take_sublist _ _).mem hi
    have hEvNd : (evictedKeys now maxEntries s).Nodup := by
      rw [evictedKeys]
      exact ((List.take_sublist _ _).map (fun i : Cache.EvictInfo => i.key)).nodup hSNd
    have hEvSub : ∀ x ∈ evictedKeys now maxEntries s,
        x ∈ (s.entries.filter (fun p => Cache.isCacheKey p.1 && decide (now ≤ p.2.expiresAt))).map Prod.fst := by
      intro x hx
      rw [evictedKeys] at hx
      obtain ⟨i, hi, hik⟩ := List.mem_map.mp hx
      have hiS : i ∈ sortedLive now s := hEvSubSorted i hi
      have hiI : i ∈ liveInfos now s.entries (cacheKeysOf s) := hperm.mem_iff.mp hiS
      rw [← hIkeys]
      exact List.mem_map.mpr ⟨i, hiI, hik⟩
    have hEvCache : ∀ x ∈ evictedKeys now maxEntries s, Cache.isCacheKey x = true := by
      intro x hx
      obtain ⟨p, hp, hpk⟩ := List.mem_map.mp (hEvSub x hx)
      have hflag := (List.mem_filter.mp hp).2
      simp only [Bool.and_eq_true, decide_eq_true_eq] at hflag
      rw [← hpk]
      exact hflag.1
    have hkmem : ∀ p ∈ s.entries, Cache.isCacheKey p.1 = true → p.1 ∈ cacheKeysOf s :=
      fun p hp hc => List.mem_filter.mpr ⟨List.mem_map_of_mem Prod.fst hp, hc⟩
    have hkmem' : ∀ p ∈ s.entries, p.1 ∈ cacheKeysOf s → Cache.isCacheKey p.1 = true :=
      fun p _ hm => (List.mem_filter.mp hm).2
    have hLive_len : (liveInfos now s.entries (cacheKeysOf s)).length = liveCache now s := by
      rw [hinfos, List.length_map, liveCache, List.countP_eq_length_filter]
    refine ⟨by simp, fun hle => absurd hle (by omega), fun _ => ?_⟩
    refine ⟨?_, ?_, ?_, ?_⟩
    · -- expired namespaced entries are gone
      intro p hp hc hexp
      rw [hFF]
      refine findVal_filter_of_drop _ _ _ ?_
      intro q hq hqk
      have hqp : q = p := List.inj_on_of_nodup_map hnd hq hp hqk
      subst hqp
      have hmem := hkmem q hq hc
      simp [hmem, hexp]
    · -- non-namespaced entries are untouched
      intro p hp hc
      rw [hFF]
      have h1 : p.1 ∉ cacheKeysOf s := by
        intro hm
        rw [hkmem' p hp hm] at hc
        exact absurd hc (by simp)
      have h2 : p.1 ∉ evictedKeys now maxEntries s := by
        intro hm
        rw [hEvCache _ hm] at hc
        exact absurd hc (by simp)
      rw [findVal_filter_of_keep _ _ _ ?_]
      · exact findVal_eq_of_mem_nodup s.entries p hnd hp
      · intro q hq hqk
        have hqp : q = p := List.inj_on_of_nodup_map hnd hq hp hqk
        subst hqp
        simp [h1, h2]
    · -- live count within limit: every live entry retained
      intro hlm p hp hc hlive
      have hek : evictedKeys now maxEntries s = [] := by
        rw [evictedKeys]
        have hz : (liveInfos now s.entries (cacheKeysOf s)).length - maxEntries = 0 := by
          omega
        rw [hz, List.take_zero, List.map_nil]
      rw [hFF, hek]
      rw [findVal_filter_of_keep _ _ _ ?_]
      · exact findVal_eq_of_mem_nodup s.entries p hnd hp
      · intro q hq hqk
        have hqp : q = p := List.inj_on_of_nodup_map hnd hq hp hqk
        subst hqp
        have hnexp : ¬ now > q.2.expiresAt := by omega
        simp [hnexp]
    · -- live count above limit
      intro hlm
      have htoE : (evictedKeys now maxEntries s).length
          = (liveInfos now s.entries (cacheKeysOf s)).length - maxEntries := by
        rw [evictedKeys, List.length_map, List.length_take]
        have hsl : (sortedLive now s).length
            = (liveInfos now s.entries (cacheKeysOf s)).length := hperm.length_eq
        omega
      have hkeep : ∀ p ∈ s.entries, Cache.isCacheKey p.1 = true → now ≤ p.2.expiresAt →
          p.1 ∉ evictedKeys now maxEntries s →
          findVal (s.entries.filter (fun p => !decide (p.1 ∈ evictedKeys now maxEntries s) && !(decide (p.1 ∈ cacheKeysOf s) && decide (now > p.2.expiresAt)))) p.1 = some p.2 := by
        intro p hp hc hlive hnm
        rw [findVal_filter_of_keep _ _ _ ?_]
        · exact findVal_eq_of_mem_nodup s.entries p hnd hp
        · intro q hq hqk
          have hqp : q = p := List.inj_on_of_nodup_map hnd hq hp hqk
          subst hqp
          have hnexp : ¬ now > q.2.expiresAt := by omega
          simp [hnexp, hnm]
      have hdrop : ∀ p ∈ s.entries, p.1 ∈ evictedKeys now maxEntries s →
          findVal (s.entries.filter (fun p => !decide (p.1 ∈ evictedKeys now maxEntries s) && !(decide (p.1 ∈ cacheKeysOf s) && decide (now > p.2.expiresAt)))) p.1 = none := by
        intro p hp hm
        refine findVal_filter_of_drop _ _ _ ?_
        intro q hq hqk
        have hqp : q = p := List.inj_on_of_nodup_map hnd hq hp hqk
        subst hqp
        simp [hm]
      refine ⟨?_, ?_, ?_⟩
      · -- exactly maxEntries live entries remain
        rw [hFF, liveCache]
        simp only
        rw [List.countP_filter]
        have hcongr : s.entries.countP (fun p =>
              (Cache.isCacheKey p.1 && decide (now ≤ p.2.expiresAt)) &&
              (!decide (p.1 ∈ evictedKeys now maxEntries s) &&
               !(decide (p.1 ∈ cacheKeysOf s) && decide (now > p.2.expiresAt))))
            = s.entries.countP (fun p =>
              !decide (p.1 ∈ evictedKeys now maxEntries s) &&
              (Cache.isCacheKey p.1 && decide (now ≤ p.2.expiresAt))) := by
          refine List.countP_congr (fun p _ => ?_)
          by_cases hc : Cache.isCacheKey p.1 = true
          · by_cases hlive : now ≤ p.2.expiresAt
            · have hnexp : ¬ now > p.2.expiresAt := by omega
              simp [hc, hlive, hnexp]
            · simp [hlive]
          · simp only [Bool.not_eq_true] at hc
            simp [hc]
        rw [hcongr, ← List.countP_filter]
        have hsum := countP_not_mem_keys (evictedKeys now maxEntries s)
          (s.entries.filter (fun p => Cache.isCacheKey p.1 && decide (now ≤ p.2.expiresAt)))
          hLnd hEvNd hEvSub
        have hflen : (s.entries.filter (fun p => Cache.isCacheKey p.1 && decide (now ≤ p.2.expiresAt))).length = liveCache now s := by
          rw [liveCache, List.countP_eq_length_filter]
        rw [hflen] at hsum
        omega
      · -- each live entry is either retained unchanged or deleted
        intro p hp hc hlive
        by_cases hm : p.1 ∈ evictedKeys now maxEntries s
        · right
          rw [hFF]
          exact hdrop p hp hm
        · left
          rw [hFF]
          exact hkeep p hp hc hlive hm
      · -- every deleted live entry is no newer than every retained one
        intro p hp q hq hcp hlp hcq hlq hpnone hqsome
        rw [hFF] at hpnone hqsome
        have hpm : p.1 ∈ evictedKeys now maxEntries s := by
          by_contra hnm
          rw [hkeep p hp hcp hlp hnm] at hpnone
          exact Option.some_ne_none _ hpnone
        have hqm : q.1 ∉ evictedKeys now maxEntries s := by
          intro hm
          rw [hdrop q hq hm] at hqsome
          exact Option.some_ne_none _ hqsome.symm
        have hpinfo : (⟨p.1, p.2.lastAccess, p.2.expiresAt⟩ : Cache.EvictInfo)
            ∈ liveInfos now s.entries (cacheKeysOf s) := by
          rw [hinfos]
          exact List.mem_map.mpr ⟨p, List.mem_filter.mpr ⟨hp, by simp [hcp, hlp]⟩, rfl⟩
        have hqinfo : (⟨q.1, q.2.lastAccess, q.2.expiresAt⟩ : Cache.EvictInfo)
            ∈ liveInfos now s.entries (cacheKeysOf s) := by
          rw [hinfos]
          exact List.mem_map.mpr ⟨q, List.mem_filter.mpr ⟨hq, by simp [hcq, hlq]⟩, rfl⟩
        have hpS : (⟨p.1, p.2.lastAccess, p.2.expiresAt⟩ : Cache.EvictInfo)
            ∈ sortedLive now s := hperm.mem_iff.mpr hpinfo
        have hqS : (⟨q.1, q.2.lastAccess, q.2.expiresAt⟩ : Cache.EvictInfo)
            ∈ sortedLive now s := hperm.mem_iff.mpr hqinfo
        rw [evictedKeys] at hpm
        obtain ⟨i, hi, hik⟩ := List.mem_map.mp hpm
        have hiS : i ∈ sortedLive now s := hEvSubSorted i hi
        have hieq : i = ⟨p.1, p.2.lastAccess, p.2.expiresAt⟩ :=
          List.inj_on_of_nodup_map hSNd hiS hpS hik
        rw [hieq] at hi
        have hqdrop : (⟨q.1, q.2.lastAccess, q.2.expiresAt⟩ : Cache.EvictInfo)
            ∈ (sortedLive now s).drop
              ((liveInfos now s.entries (cacheKeysOf s)).length - maxEntries) := by
          have hsplit := List.take_append_drop
            ((liveInfos now s.entries (cacheKeysOf s)).length - maxEntries)
            (sortedLive now s)
          rw [← hsplit] at hqS
          rcases List.mem_append.mp hqS with hq1 | hq2
          · exact absurd (by rw [evictedKeys]; exact List.mem_map.mpr ⟨_, hq1, rfl⟩) hqm
          · exact hq2
        have hsort : List.Pairwise
            (fun a b : Cache.EvictInfo => (decide (a.lastAccess ≤ b.lastAccess)) = true)
            (sortedLive now s) := by
          refine List.sorted_mergeSort ?_ ?_ _
          · intro a b c hab hbc
            simp only [decide_eq_true_eq] at *
            omega
          · intro a b
            simp only [Bool.or_eq_true, decide_eq_true_eq]
            omega
        have hsplit := List.take_append_drop
          ((liveInfos now s.entries (cacheKeysOf s)).length - maxEntries)
          (sortedLive now s)
        rw [← hsplit] at hsort
        have hrel := (List.pairwise_append.mp hsort).2.2 _ hi _ hqdrop
        simpa using hrel

/-- C1 witness: three live entries with last accesses 5, 3, 8 under limit
2; the pass succeeds and exactly 2 live entries remain. -/
theorem c1_witness :
    (Cache.evictLRUIfNeeded 50 2
        (⟨[("sea-here-cache:a", ⟨(1 : Nat), 100, 5⟩),
           ("sea-here-cache:b", ⟨(2 : Nat), 100, 3⟩),
           ("sea-here-cache:c", ⟨(3 : Nat), 100, 8⟩)], Faults.noFaults⟩ : St Nat)).1
      = .ok () ∧
    liveCache 50
      (Cache.evictLRUIfNeeded 50 2
        (⟨[("sea-here-cache:a", ⟨(1 : Nat), 100, 5⟩),
           ("sea-here-cache:b", ⟨(2 : Nat), 100, 3⟩),
           ("sea-here-cache:c", ⟨(3 : Nat), 100, 8⟩)], Faults.noFaults⟩ : St Nat)).2 = 2 := by
  have h := c1_evictLRU_amended 50 2
      (⟨[("sea-here-cache:a", ⟨(1 : Nat), 100, 5⟩),
         ("sea-here-cache:b", ⟨(2 : Nat), 100, 3⟩),
         ("sea-here-cache:c", ⟨(3 : Nat), 100, 8⟩)], Faults.noFaults⟩ : St Nat)
      rfl (by decide)
  exact ⟨h.1, ((h.2.2 (by decide)).2.2.2 (by decide)).1⟩

/-! ### Claim C10: evictLRUIfNeeded and clear propagate store failures -/

theorem delList_err {α : Type} : ∀ (ks1 : List String) (s : St α) (k : String)
    (ks2 : List String) (e : String),
    (∀ x ∈ ks1, s.faults.delF x = none) →
    s.faults.delF k = some e →
    ∃ s1, Cache.delList (ks1 ++ k :: ks2) s = (.error e, s1) := by
  intro ks1
  induction ks1 with
  | nil =>
    intro s k ks2 e _ hdk
    refine ⟨s, ?_⟩
    have hd1 : Cache.idbDel k s = .error e := by
      rw [Cache.idbDel, hdk]
    rw [List.nil_append, Cache.delList, hd1]
  | cons x rest ih =>
    intro s k ks2 e hpre hdk
    have hdx : Cache.idbDel x s = .ok { s with entries := delKey s.entries x } := by
      rw [Cache.idbDel, hpre x (List.mem_cons_self _ _)]
    obtain ⟨s1, h1⟩ := ih { s with entries := delKey s.entries x } k ks2 e
      (fun y hy => hpre y (List.mem_cons_of_mem _ hy)) hdk
    refine ⟨s1, ?_⟩
    rw [List.cons_append, Cache.delList, hdx]
    exact h1

theorem collectLive_err_at {α : Type} (now : Int) : ∀ (ks1 : List String) (s : St α)
    (k : String) (ks2 : List String) (e : String),
    k ∉ ks1 →
    (∀ x ∈ ks1, s.faults.getF x = none) →
    (∀ x ∈ ks1, s.faults.delF x = none) →
    (s.faults.getF k = some e ∨
      (s.faults.getF k = none ∧ s.faults.delF k = some e ∧
       ∃ en, findVal s.entries k = some en ∧ now > en.expiresAt)) →
    ∃ s1, Cache.collectLive now (ks1 ++ k :: ks2) s = (.error e, s1) := by
  intro ks1
  induction ks1 with
  | nil =>
    intro s k ks2 e _ _ _ hkf
    rcases hkf with hkf | ⟨hgk, hdk, en, hen, hexp⟩
    · refine ⟨s, ?_⟩
      have hg1 : Cache.idbGet k s = .error e := by
        rw [Cache.idbGet, hkf]
      rw [List.nil_append, Cache.collectLive, hg1]
    · refine ⟨s, ?_⟩
      have hg1 : Cache.idbGet k s = .ok (some en) := by
        rw [Cache.idbGet, hgk, hen]
      have hd1 : Cache.idbDel k s = .error e := by
        rw [Cache.idbDel, hdk]
      rw [List.nil_append, Cache.collectLive, hg1]
      simp only
      rw [if_neg (by omega), hd1]
  | cons x rest ih =>
    intro s k ks2 e hknot hg hd hkf
    have hknot' : k ∉ rest := fun h => hknot (List.mem_cons_of_mem _ h)
    have hkx : k ≠ x := fun h => hknot (h ▸ List.mem_cons_self _ _)
    have hgx : Cache.idbGet x s = .ok (findVal s.entries x) := by
      rw [Cache.idbGet, hg x (List.mem_cons_self _ _)]
    rcases hfv : findVal s.entries x with _ | en
    · rw [hfv] at hgx
      obtain ⟨s1, h1⟩ := ih s k ks2 e hknot'
        (fun y hy => hg y (List.mem_cons_of_mem _ hy))
        (fun y hy => hd y (List.mem_cons_of_mem _ hy)) hkf
      refine ⟨s1, ?_⟩
      rw [List.cons_append, Cache.collectLive, hgx]
      exact h1
    · rw [hfv] at hgx
      by_cases hlive : now ≤ en.expiresAt
      · obtain ⟨s1, h1⟩ := ih s k ks2 e hknot'
          (fun y hy => hg y (List.mem_cons_of_mem _ hy))
          (fun y hy => hd y (List.mem_cons_of_mem _ hy)) hkf
        refine ⟨s1, ?_⟩
        rw [List.cons_append, Cache.collectLive, hgx]
        simp only
        rw [if_pos hlive, h1]
      · have hdx : Cache.idbDel x s = .ok { s with entries := delKey s.entries x } := by
          rw [Cache.idbDel, hd x (List.mem_cons_self _ _)]
        have hkf' : s.faults.getF k = some e ∨
            (s.faults.getF k = none ∧ s.faults.delF k = some e ∧
             ∃ en', findVal (delKey s.entries x) k = some en' ∧ now > en'.expiresAt) := by
          rcases hkf with h | ⟨h1, h2, en', hen', hexp'⟩
          · exact Or.inl h
          · refine Or.inr ⟨h1, h2, en', ?_, hexp'⟩
            rw [findVal_delKey_ne s.entries x k hkx]
            exact hen'
        obtain ⟨s1, h1⟩ := ih { s with entries := delKey s.entries x } k ks2 e hknot'
          (fun y hy => hg y (List.mem_cons_of_mem _ hy))
          (fun y hy => hd y (List.mem_cons_of_mem _ hy)) hkf'
        refine ⟨s1, ?_⟩
        rw [List.cons_append, Cache.collectLive, hgx]
        simp only
        rw [if_neg hlive, hdx]
        exact h1

/-- When the live infos come out of the scan already in ascending
last-access order, the stable sort leaves them in place, so the evicted
keys are the first `liveCount - maxEntries` keys of that list. -/
theorem evictedKeys_of_pairwise {α : Type} (now : Int) (m : Nat) (s : St α)
    (h : (liveInfos now s.entries (cacheKeysOf s)).Pairwise
      (fun a b => decide (a.lastAccess ≤ b.lastAccess) = true)) :
    evictedKeys now m s =
      ((liveInfos now s.entries (cacheKeysOf s)).take
        ((liveInfos now s.entries (cacheKeysOf s)).length - m)).map
        (fun i => i.key) := by
  rw [evictedKeys, sortedLive, List.mergeSort_of_sorted h]

/-- C10. Unlike `get`, which absorbs store failures, the two maintenance
operations re-raise every store failure.  The conjuncts cover every store
primitive either function invokes, each at an arbitrary position with the
operations preceding it succeeding — so whichever store call first
raises, its error becomes the function's result: a failing key
enumeration (both functions); a failing delete of any namespaced key, at
any position, during `clear`; and during `evictLRUIfNeeded`, a failing
read of any namespaced key in the scan, a failing delete of any expired
entry in the opportunistic-cleanup loop, and a failing delete at any
position of the final eviction loop.  (Neither function ever writes, so
store `set` failures cannot arise in them.) -/
theorem c10_evict_clear_propagate {α : Type} (now : Int) (m : Nat) (s : St α) :
    (∀ e, s.faults.keysF = some e →
       Cache.evictLRUIfNeeded now m s = (.error e, s) ∧
       Cache.clear s = (.error e, s)) ∧
    (∀ ks1 k ks2 e, s.faults.keysF = none →
       cacheKeysOf s = ks1 ++ k :: ks2 →
       (∀ x ∈ ks1, s.faults.delF x = none) →
       s.faults.delF k = some e →
       ∃ s1, Cache.clear s = (.error e, s1)) ∧
    (∀ ks1 k ks2 e, s.faults.keysF = none →
       cacheKeysOf s = ks1 ++ k :: ks2 →
       m < (cacheKeysOf s).length →
       k ∉ ks1 →
       (∀ x ∈ ks1, s.faults.getF x = none ∧ s.faults.delF x = none) →
       (s.faults.getF k = some e ∨
         (s.faults.getF k = none ∧ s.faults.delF k = some e ∧
          ∃ en, findVal s.entries k = some en ∧ now > en.expiresAt)) →
       ∃ s1, Cache.evictLRUIfNeeded now m s = (.error e, s1)) ∧
    (∀ ks1 k ks2 e, (s.entries.map Prod.fst).Nodup →
       s.faults.keysF = none →
       s.faults.getF = (fun _ => none) →
       (∀ p ∈ s.entries, now > p.2.expiresAt → s.faults.delF p.1 = none) →
       m < (cacheKeysOf s).length →
       evictedKeys now m s = ks1 ++ k :: ks2 →
       (∀ x ∈ ks1, s.faults.delF x = none) →
       s.faults.delF k = some e →
       ∃ s1, Cache.evictLRUIfNeeded now m s = (.error e, s1)) := by
  refine ⟨fun e hk => ?_, fun ks1 k ks2 e hk hsplit hpre hdk => ?_,
    fun ks1 k ks2 e hk hsplit hm hknot hpre hkf => ?_,
    fun ks1 k ks2 e hnd hk hg hdexp hm hsplit hpre hdk => ?_⟩
  · constructor
    · simp [Cache.evictLRUIfNeeded, Cache.idbKeys, hk]
    · simp [Cache.clear, Cache.idbKeys, hk]
  · obtain ⟨s1, hdl⟩ := delList_err ks1 s k ks2 e hpre hdk
    refine ⟨s1, ?_⟩
    have hkeyseq : Cache.idbKeys s = .ok (s.entries.map Prod.fst) := by
      rw [Cache.idbKeys, hk]
    rw [Cache.clear, hkeyseq]
    simp only
    rw [show (s.entries.map Prod.fst).filter Cache.isCacheKey = cacheKeysOf s from rfl,
      hsplit, hdl]
  · obtain ⟨s1, hcoll⟩ := collectLive_err_at now ks1 s k ks2 e hknot
      (fun x hx => (hpre x hx).1) (fun x hx => (hpre x hx).2) hkf
    refine ⟨s1, ?_⟩
    have hkeyseq : Cache.idbKeys s = .ok (s.entries.map Prod.fst) := by
      rw [Cache.idbKeys, hk]
    rw [Cache.evictLRUIfNeeded, hkeyseq]
    simp only
    rw [show (s.entries.map Prod.fst).filter Cache.isCacheKey = cacheKeysOf s from rfl]
    rw [if_neg (by omega), hsplit, hcoll]
  · have hkeyseq : Cache.idbKeys s = .ok (s.entries.map Prod.fst) := by
      rw [Cache.idbKeys, hk]
    have hksnd : (cacheKeysOf s).Nodup := hnd.filter _
    have hsub : ∀ q ∈ cacheKeysOf s, q ∈ s.entries.map Prod.fst :=
      fun q hq => (List.mem_filter.mp hq).1
    have hcoll := collectLive_spec now (cacheKeysOf s) s
      (fun q _ => by rw [hg])
      (fun q _ en hen hexp => hdexp (q, en) (mem_of_findVal s.entries q en hen) hexp)
      hnd hksnd hsub
    have hev : (liveInfos now s.entries (cacheKeysOf s)).length - m > 0 := by
      by_contra h0
      have hz : (liveInfos now s.entries (cacheKeysOf s)).length - m = 0 := by omega
      have hemp : evictedKeys now m s = [] := by
        rw [evictedKeys, hz, List.take_zero, List.map_nil]
      rw [hsplit] at hemp
      exact absurd hemp (by simp)
    obtain ⟨s2, hdl⟩ := delList_err ks1
      ({ s with entries := s.entries.filter (fun p => !(decide (p.1 ∈ cacheKeysOf s) && decide (now > p.2.expiresAt))) })
      k ks2 e hpre hdk
    refine ⟨s2, ?_⟩
    rw [Cache.evictLRUIfNeeded, hkeyseq]
    simp only
    rw [show (s.entries.map Prod.fst).filter Cache.isCacheKey = cacheKeysOf s from rfl]
    rw [if_neg (by omega), hcoll]
    simp only
    rw [if_pos hev]
    have harg : (((liveInfos now s.entries (cacheKeysOf s)).mergeSort
          (fun a b => decide (a.lastAccess ≤ b.lastAccess))).take
            ((liveInfos now s.entries (cacheKeysOf s)).length - m)).map (fun i => i.key)
        = ks1 ++ k :: ks2 := by
      rw [← hsplit]
      rfl
    rw [harg, hdl]

/-- C10 witness: four concrete failing stores — a failing key
enumeration; a delete failing on the second namespaced key during
`clear`; a delete failing on an expired second entry inside
`evictLRUIfNeeded`'s cleanup loop; and a delete failing on the key the
final eviction loop selects. -/
theorem c10_witness :
    Cache.evictLRUIfNeeded 0 0
        (⟨[], ⟨some "kboom", fun _ => none, fun _ => none, fun _ => none⟩⟩ : St Nat)
      = (.error "kboom",
         ⟨[], ⟨some "kboom", fun _ => none, fun _ => none, fun _ => none⟩⟩) ∧
    (Cache.clear
        (⟨[("sea-here-cache:a", ⟨(1 : Nat), 100, 0⟩),
           ("sea-here-cache:b", ⟨(2 : Nat), 100, 0⟩)],
          ⟨none, fun _ => none, fun _ => none,
           fun k => if k = "sea-here-cache:b" then some "dboom" else none⟩⟩ : St Nat)).1
      = .error "dboom" ∧
    (Cache.evictLRUIfNeeded 5 1
        (⟨[("sea-here-cache:a", ⟨(1 : Nat), 100, 0⟩),
           ("sea-here-cache:b", ⟨(2 : Nat), 0, 0⟩),
           ("sea-here-cache:c", ⟨(3 : Nat), 100, 0⟩)],
          ⟨none, fun _ => none, fun _ => none,
           fun k => if k = "sea-here-cache:b" then some "eboom" else none⟩⟩ : St Nat)).1
      = .error "eboom" ∧
    (Cache.evictLRUIfNeeded 50 0
        (⟨[("sea-here-cache:a", ⟨(1 : Nat), 100, 3⟩),
           ("sea-here-cache:b", ⟨(2 : Nat), 100, 5⟩)],
          ⟨none, fun _ => none, fun _ => none,
           fun k => if k = "sea-here-cache:b" then some "vboom" else none⟩⟩ : St Nat)).1
      = .error "vboom" := by
  refine ⟨?_, ?_, ?_, ?_⟩
  · exact ((c10_evict_clear_propagate 0 0
      (⟨[], ⟨some "kboom", fun _ => none, fun _ => none, fun _ => none⟩⟩ : St Nat)).1
      "kboom" rfl).1
  · obtain ⟨s1, h⟩ := (c10_evict_clear_propagate 0 0
        (⟨[("sea-here-cache:a", ⟨(1 : Nat), 100, 0⟩),
           ("sea-here-cache:b", ⟨(2 : Nat), 100, 0⟩)],
          ⟨none, fun _ => none, fun _ => none,
           fun k => if k = "sea-here-cache:b" then some "dboom" else none⟩⟩ : St Nat)).2.1
      ["sea-here-cache:a"] "sea-here-cache:b" [] "dboom"
      rfl (by decide) (by decide) (by decide)
    rw [h]
  · obtain ⟨s1, h⟩ := (c10_evict_clear_propagate 5 1
        (⟨[("sea-here-cache:a", ⟨(1 : Nat), 100, 0⟩),
           ("sea-here-cache:b", ⟨(2 : Nat), 0, 0⟩),
           ("sea-here-cache:c", ⟨(3 : Nat), 100, 0⟩)],
          ⟨none, fun _ => none, fun _ => none,
           fun k => if k = "sea-here-cache:b" then some "eboom" else none⟩⟩ : St Nat)).2.2.1
      ["sea-here-cache:a"] "sea-here-cache:b" ["sea-here-cache:c"] "eboom"
      rfl (by decide) (by decide) (by decide) (by decide)
      (Or.inr ⟨rfl, by decide, ⟨⟨2, 0, 0⟩, by decide, by decide⟩⟩)
    rw [h]
  · obtain ⟨s1, h⟩ := (c10_evict_clear_propagate 50 0
        (⟨[("sea-here-cache:a", ⟨(1 : Nat), 100, 3⟩),
           ("sea-here-cache:b", ⟨(2 : Nat), 100, 5⟩)],
          ⟨none, fun _ => none, fun _ => none,
           fun k => if k = "sea-here-cache:b" then some "vboom" else none⟩⟩ : St Nat)).2.2.2
      ["sea-here-cache:a"] "sea-here-cache:b" [] "vboom"
      (by decide) rfl rfl (by decide) (by decide)
      ((evictedKeys_of_pairwise 50 0 _ (by decide)).trans (by decide))
      (by decide) (by decide)
    rw [h]

/-! ### Repository layer (src/data/repository.ts)

The repository stores heterogeneous JavaScript values in the cache, so
this layer instantiates the cache engine at value type `JVal`.  Wall-clock
time is a frozen `Int` parameter, the remote API is an oracle mapping the
request URL and the `If-None-Match` header value to either a thrown
network error or a `Resp`, and the bundled dataset (`coreSpecies` of
src/data/preload.ts, whose JSON content ships outside the sources) is an
explicit list parameter.  `encodeURIComponent` is modelled as the
identity (the claims under verification involve no characters it would
rewrite). -/

/-- A `fetch` response: HTTP status, optional `ETag` header, and the JSON
body (`response.json()` may itself throw, modelled by the `Except`). -/
structure Resp where
  status : Nat
  etag : Option String
  body : Except String JVal

/-- `response.ok`: status in the 2xx range. -/
def respOk (r : Resp) : Bool := decide (200 ≤ r.status) && decide (r.status ≤ 299)

/-- The network oracle: URL and `If-None-Match` header value to outcome. -/
def NetFn : Type := String → Option JVal → Except String Resp

/-- JavaScript `String.prototype.trim` character class (ASCII part). -/
def jsWs (c : Char) : Bool :=
  decide (c = ' ') || decide (c = '\t') || decide (c = '\n') || decide (c = '\r')

/-- JavaScript `trim()`, modelled over the character list. -/
def jsTrim (s : String) : String :=
  ⟨((s.data.dropWhile jsWs).reverse.dropWhile jsWs).reverse⟩

/-- JavaScript `toLowerCase()`, modelled over the character list. -/
def jsToLower (s : String) : String := ⟨s.data.map Char.toLower⟩

/-- `CACHE_TTL` of repository.ts, in milliseconds. -/
def ttlSpecies : Int := 24 * 60 * 60 * 1000

def ttlPopulation : Int := 6 * 60 * 60 * 1000

def ttlEtag : Int := 24 * 60 * 60 * 1000

def ttlSearch : Int := 30 * 60 * 1000

/-- `CACHE_KEYS` of repository.ts. -/
def speciesKey (id : String) : String := "species:" ++ id

def populationKey (id : String) : String := "population:" ++ id

def etagKey (url : String) : String := "etag:" ++ url

def searchKey (q : String) : String := "search:" ++ q

/-- The operation closure passed to `withBackoff` by `fetchWithETag`: one
`fetch` plus the caching of a returned `ETag` header (a failing store
write inside the closure is a failure of the whole attempt). -/
def fetchOp (now : Int) (net : NetFn) (url : String) (inm : Option JVal)
    (s : St JVal) : Except String Resp × St JVal :=
  match net url inm with
  | .error e => (.error e, s)
  | .ok resp =>
    match resp.etag with
    | some t =>
      match Cache.set now (etagKey url) (.jstr t) ttlEtag s with
      | (.ok _, s1) => (.ok resp, s1)
      | (.error e, s1) => (.error e, s1)
    | none => (.ok resp, s)

/-- backoff.ts `withBackoff` as used by the repository: the operation
threads the store state; the timed delays affect no state, so only the
retry structure is modelled here (the delay schedule itself is verified
on `withBackoff` above).  The fuel argument is the number of retries
still allowed. -/
def withBackoffSt (op : St JVal → Except String Resp × St JVal) :
    Nat → St JVal → Except String Resp × St JVal
  | 0, s => op s
  | n + 1, s =>
    match op s with
    | (.ok r, s1) => (.ok r, s1)
    | (.error _, s1) => withBackoffSt op n s1

/-- repository.ts `fetchWithETag`: read the cached validator for the URL,
send it as `If-None-Match` when truthy, and run the fetch under the
default backoff policy (2 retries). -/
def fetchWithETag (now : Int) (net : NetFn) (url : String) (s : St JVal) :
    Except String Resp × St JVal :=
  match Cache.get now (etagKey url) s with
  | (cachedETag, s1) =>
    withBackoffSt
      (fetchOp now net url
        (match cachedETag with
         | some v => if jvalTruthy v then some v else none
         | none => none))
      2 s1

/-- Shorthand for the string type guard used by `isSpecies`. -/
def isStrField (v : Option JVal) : Bool :=
  match v with
  | some (.jstr _) => true
  | _ => false

/-- domain/types.ts `isSpecies`: structural validation of a species
record (string `id` and `name`, `endangerment` one of the five codes,
`bullets` with three string fields, `photoURLs` an array of strings). -/
def isSpecies (v : JVal) : Bool :=
  match v with
  | .jobj fields =>
    isStrField (findVal fields "id") &&
    isStrField (findVal fields "name") &&
    (match findVal fields "endangerment" with
     | some (.jstr e) => ["LC", "NT", "VU", "EN", "CR"].contains e
     | _ => false) &&
    (match findVal fields "bullets" with
     | some (.jobj bs) =>
       isStrField (findVal bs "habitat") && isStrField (findVal bs "diet") &&
       isStrField (findVal bs "personality")
     | _ => false) &&
    (match findVal fields "photoURLs" with
     | some (.jarr l) => l.all (fun u => isStrField (some u))
     | _ => false)
  | _ => false

/-- Property read `v[f]` on an object value (`undefined` otherwise). -/
def getField : JVal → String → Option JVal
  | .jobj fields, f => findVal fields f
  | _, _ => none

/-- The identifier `s.id` of a (validated) species value; species that
passed `isSpecies` always carry a string id. -/
def speciesId (v : JVal) : String :=
  match getField v "id" with
  | some (.jstr s) => s
  | _ => ""

/-- preload.ts `coreSpeciesById`: the record built by reducing the
bundled list (a later duplicate id overwrites an earlier one, as in a
JavaScript object). -/
def coreById (core : List JVal) : List (String × JVal) :=
  core.foldl (fun acc sp => putKey acc (speciesId sp) sp) []

/-- preload.ts `getCoreSpeciesById`. -/
def getCoreSpeciesById (id : String) (core : List JVal) : Option JVal :=
  findVal (coreById core) id

/-- String field of a species value (validated species have them all). -/
def strField (v : JVal) (f : String) : String :=
  match getField v f with
  | some (.jstr s) => s
  | _ => ""

def bulletField (v : JVal) (f : String) : String :=
  match getField v "bullets" with
  | some b => strField b f
  | none => ""

/-- The haystack `fuzzySearchPreload` builds per species: name and the
three descriptive fields joined by spaces, lowercased. -/
def searchableText (sp : JVal) : String :=
  jsToLower (strField sp "name" ++ " " ++ bulletField sp "habitat" ++ " " ++
    bulletField sp "diet" ++ " " ++ bulletField sp "personality")

/-- JavaScript `String.prototype.includes`: contiguous substring. -/
def containsSub (s pat : String) : Bool := decide (pat.data <:+: s.data)

/-- repository.ts `fuzzySearchPreload`: case-insensitive substring match
of the trimmed query against each bundled record's searchable text. -/
def fuzzySearchPreload (query : String) (core : List JVal) : List JVal :=
  if jsTrim query = "" then []
  else core.filter (fun sp => containsSub (searchableText sp) (jsTrim (jsToLower query)))

/-- The push loop of `mergeSearchResults`: keep the remote results whose
id is not already present locally (the id set is fixed up front, so
duplicate ids within the remote list are all kept). -/
def mergeLoop (localIds : List String) : List JVal → List JVal
  | [] => []
  | sp :: rest =>
    if localIds.contains (speciesId sp) then mergeLoop localIds rest
    else sp :: mergeLoop localIds rest

/-- repository.ts `mergeSearchResults`: local results first, then the
non-duplicate remote results. -/
def mergeSearchResults (loc remote : List JVal) : List JVal :=
  loc ++ mergeLoop (loc.map speciesId) remote

/-- Step 4 of `getSpecies`: bundled-dataset fallback; a found record is
written back to the cache (same key and TTL as a remote result); if that
write throws, the outer catch returns the bundled lookup directly. -/
def speciesFallback (now : Int) (core : List JVal) (idStr : String) (s : St JVal) :
    Except String (Option JVal) × St JVal :=
  match getCoreSpeciesById idStr core with
  | some pre =>
    if jvalTruthy pre then
      match Cache.set now (speciesKey idStr) pre ttlSpecies s with
      | (.ok _, s1) => (.ok (some pre), s1)
      | (.error _, s1) => (.ok (getCoreSpeciesById idStr core), s1)
    else (.ok none, s)
  | none => (.ok none, s)

/-- The `response.ok` branch of `getSpecies`: parse and validate the
body; cache and return a valid species; anything else (non-OK status,
json failure, shape failure, store-write failure inside the inner try)
falls through to the bundled fallback. -/
def speciesOkCheck (now : Int) (core : List JVal) (idStr : String) (resp : Resp)
    (s : St JVal) : Except String (Option JVal) × St JVal :=
  if respOk resp then
    match resp.body with
    | .error _ => speciesFallback now core idStr s
    | .ok data =>
      if isSpecies data then
        match Cache.set now (speciesKey idStr) data ttlSpecies s with
        | (.ok _, s1) => (.ok (some data), s1)
        | (.error _, s1) => speciesFallback now core idStr s1
      else speciesFallback now core idStr s
  else speciesFallback now core idStr s

/-- Step 2 of `getSpecies`: the remote attempt (inner try); a network
failure after retries falls through to the bundled fallback; a 304 trusts
the cache when it still holds a valid record. -/
def speciesRemote (now : Int) (net : NetFn) (core : List JVal) (idStr : String)
    (s : St JVal) : Except String (Option JVal) × St JVal :=
  match fetchWithETag now net ("/api/species/" ++ idStr) s with
  | (.error _, s1) => speciesFallback now core idStr s1
  | (.ok resp, s1) =>
    if resp.status = 304 then
      match Cache.get now (speciesKey idStr) s1 with
      | (some v, s2) =>
        if jvalTruthy v && isSpecies v then (.ok (some v), s2)
        else speciesOkCheck now core idStr resp s2
      | (none, s2) => speciesOkCheck now core idStr resp s2
    else speciesOkCheck now core idStr resp s1

/-- repository.ts `getSpecies(id)`: the guard `if (!id?.trim()) return
undefined` precedes the try block, so a nullish id or a string with empty
trim resolves to "not found", while a non-string id throws a `TypeError`;
otherwise: cache, then network, then bundled dataset. -/
def getSpecies (now : Int) (net : NetFn) (core : List JVal) (id : JVal)
    (s : St JVal) : Except String (Option JVal) × St JVal :=
  match id with
  | .jstr str =>
    if jsTrim str = "" then (.ok none, s)
    else
      match Cache.get now (speciesKey str) s with
      | (some v, s1) =>
        if jvalTruthy v && isSpecies v then (.ok (some v), s1)
        else speciesRemote now net core str s1
      | (none, s1) => speciesRemote now net core str s1
  | .jnull => (.ok none, s)
  | .jundef => (.ok none, s)
  | _ => (.error "TypeError: id.trim is not a function", s)

/-- The trailing block of `search`: cache the local-only results and
return them; if the store write throws, the outer catch re-runs the local
fuzzy search and returns it. -/
def searchFinal (now : Int) (core : List JVal) (q : String) (s : St JVal) :
    Except String JVal × St JVal :=
  match Cache.set now (searchKey q) (.jarr (fuzzySearchPreload q core)) ttlSearch s with
  | (.ok _, s1) => (.ok (.jarr (fuzzySearchPreload q core)), s1)
  | (.error _, s1) => (.ok (.jarr (fuzzySearchPreload q core)), s1)

/-- The `response.ok` branch of `search`: a valid all-species array body
is merged with the local results, cached and returned; anything else
keeps the local-only results. -/
def searchOkCheck (now : Int) (core : List JVal) (q : String) (resp : Resp)
    (s : St JVal) : Except String JVal × St JVal :=
  if respOk resp then
    match resp.body with
    | .error _ => searchFinal now core q s
    | .ok data =>
      match data with
      | .jarr remote =>
        if remote.all isSpecies then
          match Cache.set now (searchKey q)
              (.jarr (mergeSearchResults (fuzzySearchPreload q core) remote))
              ttlSearch s with
          | (.ok _, s1) =>
            (.ok (.jarr (mergeSearchResults (fuzzySearchPreload q core) remote)), s1)
          | (.error _, s1) => searchFinal now core q s1
        else searchFinal now core q s
      | _ => searchFinal now core q s
  else searchFinal now core q s

/-- The remote attempt of `search`. -/
def searchRemote (now : Int) (net : NetFn) (core : List JVal) (q : String)
    (s : St JVal) : Except String JVal × St JVal :=
  match fetchWithETag now net ("/api/search?q=" ++ q) s with
  | (.error _, s1) => searchFinal now core q s1
  | (.ok resp, s1) =>
    if resp.status = 304 then
      match Cache.get now (searchKey q) s1 with
      | (some v, s2) =>
        if jvalTruthy v && jvalIsArr v then (.ok v, s2)
        else searchOkCheck now core q resp s2
      | (none, s2) => searchOkCheck now core q resp s2
    else searchOkCheck now core q resp s1

/-- repository.ts `search(query)`: guard, cached result, local fuzzy
search merged with the remote results when available. -/
def search (now : Int) (net : NetFn) (core : List JVal) (query : JVal)
    (s : St JVal) : Except String JVal × St JVal :=
  match query with
  | .jstr q =>
    if jsTrim q = "" then (.ok (.jarr []), s)
    else
      match Cache.get now (searchKey q) s with
      | (some v, s1) =>
        if jvalTruthy v && jvalIsArr v then (.ok v, s1)
        else searchRemote now net core q s1
      | (none, s1) => searchRemote now net core q s1
  | .jnull => (.ok (.jarr []), s)
  | .jundef => (.ok (.jarr []), s)
  | _ => (.error "TypeError: query.trim is not a function", s)

/-- The `response.ok` branch of `getPopulation`: any array body is cached
and returned (no per-element validation); anything else — non-OK status,
json failure, non-array body, store-write failure inside the inner try —
yields the empty list. -/
def popOkCheck (now : Int) (idStr : String) (resp : Resp) (s : St JVal) :
    Except String JVal × St JVal :=
  if respOk resp then
    match resp.body with
    | .error _ => (.ok (.jarr []), s)
    | .ok data =>
      match data with
      | .jarr l =>
        match Cache.set now (populationKey idStr) (.jarr l) ttlPopulation s with
        | (.ok _, s1) => (.ok (.jarr l), s1)
        | (.error _, s1) => (.ok (.jarr []), s1)
      | _ => (.ok (.jarr []), s)
  else (.ok (.jarr []), s)

/-- The remote attempt of `getPopulation`; there is no bundled-dataset
fallback: every failure path returns the empty list. -/
def popRemote (now : Int) (net : NetFn) (idStr : String) (s : St JVal) :
    Except String JVal × St JVal :=
  match fetchWithETag now net ("/api/population/" ++ idStr) s with
  | (.error _, s1) => (.ok (.jarr []), s1)
  | (.ok resp, s1) =>
    if resp.status = 304 then
      match Cache.get now (populationKey idStr) s1 with
      | (some v, s2) =>
        if jvalTruthy v && jvalIsArr v then (.ok v, s2)
        else popOkCheck now idStr resp s2
      | (none, s2) => popOkCheck now idStr resp s2
    else popOkCheck now idStr resp s1

/-- repository.ts `getPopulation(id)`: guard, cache, remote; empty list on
any failure. -/
def getPopulation (now : Int) (net : NetFn) (id : JVal) (s : St JVal) :
    Except String JVal × St JVal :=
  match id with
  | .jstr str =>
    if jsTrim str = "" then (.ok (.jarr []), s)
    else
      match Cache.get now (populationKey str) s with
      | (some v, s1) =>
        if jvalTruthy v && jvalIsArr v then (.ok v, s1)
        else popRemote now net str s1
      | (none, s1) => popRemote now net str s1
  | .jnull => (.ok (.jarr []), s)
  | .jundef => (.ok (.jarr []), s)
  | _ => (.error "TypeError: id.trim is not a function", s)

/-! ### Repository helper lemmas -/

theorem getCacheKey_inj (a b : String)
    (h : Cache.getCacheKey a = Cache.getCacheKey b) : a = b := by
  rw [Cache.getCacheKey, Cache.getCacheKey] at h
  have hd := congrArg String.data h
  rw [String.data_append, String.data_append] at hd
  exact String.ext (List.append_cancel_left hd)

theorem speciesKey_ne_etagKey (id url : String) :
    Cache.getCacheKey (speciesKey id) ≠ Cache.getCacheKey (etagKey url) := by
  intro h
  have h2 := congrArg String.data (getCacheKey_inj _ _ h)
  rw [speciesKey, etagKey, String.data_append, String.data_append] at h2
  have hP : "species:".data = 's' :: "pecies:".data := rfl
  have hE : "etag:".data = 'e' :: "tag:".data := rfl
  rw [hP, hE] at h2
  simp at h2

theorem populationKey_ne_etagKey (id url : String) :
    Cache.getCacheKey (populationKey id) ≠ Cache.getCacheKey (etagKey url) := by
  intro h
  have h2 := congrArg String.data (getCacheKey_inj _ _ h)
  rw [populationKey, etagKey, String.data_append, String.data_append] at h2
  have hP : "population:".data = 'p' :: "opulation:".data := rfl
  have hE : "etag:".data = 'e' :: "tag:".data := rfl
  rw [hP, hE] at h2
  simp at h2

theorem searchKey_ne_etagKey (q url : String) :
    Cache.getCacheKey (searchKey q) ≠ Cache.getCacheKey (etagKey url) := by
  intro h
  have h2 := congrArg String.data (getCacheKey_inj _ _ h)
  rw [searchKey, etagKey, String.data_append, String.data_append] at h2
  have hP : "search:".data = 's' :: "earch:".data := rfl
  have hE : "etag:".data = 'e' :: "tag:".data := rfl
  rw [hP, hE] at h2
  simp at h2

theorem get_entries_other {α : Type} (now : Int) (key : String) (s : St α)
    (k' : String) (hne : k' ≠ Cache.getCacheKey key) :
    findVal (Cache.get now key s).2.entries k' = findVal s.entries k' := by
  rw [Cache.get, Cache.getAttempt]
  rcases hg : Cache.idbGet (Cache.getCacheKey key) s with e | v
  · rfl
  · rcases v with _ | en
    · rfl
    · by_cases hexp : now > en.expiresAt
      · simp only [hexp, if_pos]
        rcases hd : Cache.idbDel (Cache.getCacheKey key) s with e | s1
        · rfl
        · rw [Cache.idbDel] at hd
          rcases h : s.faults.delF (Cache.getCacheKey key) with _ | e2 <;> rw [h] at hd
          · have hs1 := Except.ok.inj hd
            simp only [← hs1]
            exact findVal_delKey_ne s.entries (Cache.getCacheKey key) k' hne
          · simp at hd
      · simp only [hexp, if_neg]
        rcases hd : Cache.idbSet (Cache.getCacheKey key) { en with lastAccess := now } s with e | s1
        · rfl
        · rw [Cache.idbSet] at hd
          rcases h : s.faults.setF (Cache.getCacheKey key) with _ | e2 <;> rw [h] at hd
          · have hs1 := Except.ok.inj hd
            simp only [← hs1]
            exact findVal_putKey_ne s.entries (Cache.getCacheKey key) k' _ hne
          · simp at hd

theorem set_entries_other {α : Type} (now : Int) (key : String) (v : α) (ttl : Int)
    (s : St α) (k' : String) (hne : k' ≠ Cache.getCacheKey key) :
    findVal (Cache.set now key v ttl s).2.entries k' = findVal s.entries k' := by
  rw [Cache.set, Cache.idbSet]
  rcases h : s.faults.setF (Cache.getCacheKey key) with _ | e
  · simp only
    exact findVal_putKey_ne s.entries (Cache.getCacheKey key) k' _ hne
  · rfl

theorem fetchOp_entries_other (now : Int) (net : NetFn) (url : String)
    (inm : Option JVal) (s : St JVal) (k' : String)
    (hne : k' ≠ Cache.getCacheKey (etagKey url)) :
    findVal (fetchOp now net url inm s).2.entries k' = findVal s.entries k' := by
  rw [fetchOp]
  rcases net url inm with e | resp
  · rfl
  · rcases hetag : resp.etag with _ | t
    · simp [hetag]
    · simp only [hetag]
      rcases hset : Cache.set now (etagKey url) (JVal.jstr t) ttlEtag s with ⟨r, s1⟩
      have h := set_entries_other now (etagKey url) (JVal.jstr t) ttlEtag s k' hne
      rw [hset] at h
      rcases r with e | u
      · simpa using h
      · simpa using h

theorem fetchOp_faults_eq (now : Int) (net : NetFn) (url : String)
    (inm : Option JVal) (s : St JVal) :
    (fetchOp now net url inm s).2.faults = s.faults := by
  rw [fetchOp]
  rcases net url inm with e | resp
  · rfl
  · rcases hetag : resp.etag with _ | t
    · simp [hetag]
    · simp only [hetag]
      rcases hset : Cache.set now (etagKey url) (JVal.jstr t) ttlEtag s with ⟨r, s1⟩
      have h := set_faults_eq now (etagKey url) (JVal.jstr t) ttlEtag s
      rw [hset] at h
      rcases r with e | u
      · simpa using h
      · simpa using h

theorem withBackoffSt_entries_other (now : Int) (net : NetFn) (url : String)
    (inm : Option JVal) : ∀ (n : Nat) (s : St JVal) (k' : String),
    k' ≠ Cache.getCacheKey (etagKey url) →
    findVal (withBackoffSt (fetchOp now net url inm) n s).2.entries k'
      = findVal s.entries k' := by
  intro n
  induction n with
  | zero =>
    intro s k' hne
    exact fetchOp_entries_other now net url inm s k' hne
  | succ m ih =>
    intro s k' hne
    rw [withBackoffSt]
    rcases hop : fetchOp now net url inm s with ⟨r, s1⟩
    have hpre := fetchOp_entries_other now net url inm s k' hne
    rw [hop] at hpre
    rcases r with e | resp
    · rw [ih s1 k' hne, hpre]
    · exact hpre

theorem withBackoffSt_faults_eq (now : Int) (net : NetFn) (url : String)
    (inm : Option JVal) : ∀ (n : Nat) (s : St JVal),
    (withBackoffSt (fetchOp now net url inm) n s).2.faults = s.faults := by
  intro n
  induction n with
  | zero =>
    intro s
    exact fetchOp_faults_eq now net url inm s
  | succ m ih =>
    intro s
    rw [withBackoffSt]
    rcases hop : fetchOp now net url inm s with ⟨r, s1⟩
    have hpre := fetchOp_faults_eq now net url inm s
    rw [hop] at hpre
    rcases r with e | resp
    · rw [ih s1, hpre]
    · exact hpre

theorem fetchWithETag_entries_other (now : Int) (net : NetFn) (url : String)
    (s : St JVal) (k' : String) (hne : k' ≠ Cache.getCacheKey (etagKey url)) :
    findVal (fetchWithETag now net url s).2.entries k' = findVal s.entries k' := by
  rw [fetchWithETag]
  rcases hget : Cache.get now (etagKey url) s with ⟨v, s1⟩
  have hpre := get_entries_other now (etagKey url) s k' hne
  rw [hget] at hpre
  rw [withBackoffSt_entries_other now net url _ 2 s1 k' hne, hpre]

theorem fetchWithETag_faults_eq (now : Int) (net : NetFn) (url : String)
    (s : St JVal) : (fetchWithETag now net url s).2.faults = s.faults := by
  rw [fetchWithETag]
  rcases hget : Cache.get now (etagKey url) s with ⟨v, s1⟩
  have hpre := get_faults_eq now (etagKey url) s
  rw [hget] at hpre
  rw [withBackoffSt_faults_eq now net url _ 2 s1, hpre]

theorem fetchOp_ok (now : Int) (net : NetFn) (url : String) (inm : Option JVal)
    (s : St JVal) (resp : Resp) (hnet : net url inm = .ok resp)
    (hset : s.faults.setF (Cache.getCacheKey (etagKey url)) = none) :
    (fetchOp now net url inm s).1 = .ok resp := by
  rw [fetchOp, hnet]
  rcases hetag : resp.etag with _ | t
  · simp [hetag]
  · simp only [hetag]
    rw [set_ok now (etagKey url) (JVal.jstr t) ttlEtag s hset]

theorem withBackoffSt_first_ok (op : St JVal → Except String Resp × St JVal)
    (n : Nat) (s : St JVal) (resp : Resp) (s1 : St JVal)
    (hop : op s = (.ok resp, s1)) :
    withBackoffSt op n s = (.ok resp, s1) := by
  cases n with
  | zero => rw [withBackoffSt, hop]
  | succ m => rw [withBackoffSt, hop]

theorem withBackoffSt_ok_of_first (op : St JVal → Except String Resp × St JVal)
    (n : Nat) (s : St JVal) (resp : Resp) (h1 : (op s).1 = .ok resp) :
    (withBackoffSt op n s).1 = .ok resp := by
  cases n with
  | zero =>
    rw [withBackoffSt]
    exact h1
  | succ m =>
    rw [withBackoffSt]
    rcases hop : op s with ⟨r, s2⟩
    rw [hop] at h1
    simp only at h1
    subst h1
    rfl

theorem withBackoffSt_all_err (op : St JVal → Except String Resp × St JVal)
    (e : String) (hop : ∀ s, op s = (.error e, s)) :
    ∀ (n : Nat) (s : St JVal), withBackoffSt op n s = (.error e, s) := by
  intro n
  induction n with
  | zero =>
    intro s
    rw [withBackoffSt, hop]
  | succ m ih =>
    intro s
    rw [withBackoffSt, hop]
    exact ih s

theorem fetchWithETag_ok (now : Int) (net : NetFn) (url : String) (s : St JVal)
    (resp : Resp) (hnet : ∀ inm, net url inm = .ok resp)
    (hset : s.faults.setF (Cache.getCacheKey (etagKey url)) = none) :
    (fetchWithETag now net url s).1 = .ok resp := by
  rw [fetchWithETag]
  rcases hget : Cache.get now (etagKey url) s with ⟨v, s1⟩
  simp only
  have hfl : s1.faults = s.faults := by
    have h := get_faults_eq now (etagKey url) s
    rw [hget] at h
    exact h
  exact withBackoffSt_ok_of_first _ 2 s1 resp
    (fetchOp_ok now net url _ s1 resp (hnet _) (by rw [hfl]; exact hset))

theorem fetchWithETag_err (now : Int) (net : NetFn) (url : String) (s : St JVal)
    (e : String) (hnet : ∀ inm, net url inm = .error e) :
    (fetchWithETag now net url s).1 = .error e := by
  rw [fetchWithETag]
  rcases hget : Cache.get now (etagKey url) s with ⟨v, s1⟩
  simp only
  have hop : ∀ s', fetchOp now net url
      (match v with
       | some w => if jvalTruthy w then some w else none
       | none => none) s' = (.error e, s') := by
    intro s'
    rw [fetchOp, hnet]
  exact congrArg Prod.fst (withBackoffSt_all_err _ e hop 2 s1)

/-! ### Claim C6 (corrected): the getSpecies input guard -/

/-- C6 counterexample. The claim says `getSpecies(id)` returns "not
found" when `id` is not a string; in the code the guard `!id?.trim()`
precedes the try block, and optional chaining on a non-nullish non-string
calls `.trim` on it, so `getSpecies(42)` throws a `TypeError` instead of
resolving to "not found". -/
theorem c6_counterexample :
    (getSpecies 0 (fun _ _ => .error "net") [] (.jnum 42) ⟨[], Faults.noFaults⟩).1
      = .error "TypeError: id.trim is not a function" := rfl

/-- C6 as amended: for an empty or whitespace-only string id, and for the
nullish inputs `null` and `undefined`, `getSpecies` resolves to "not
found" immediately, for every network oracle and every store state, and
the store state is untouched; a non-string non-nullish id instead throws
a `TypeError`. -/
theorem c6_guard_amended (now : Int) (net : NetFn) (core : List JVal)
    (s : St JVal) (q : String) (hq : jsTrim q = "") :
    getSpecies now net core (.jstr q) s = (.ok none, s) ∧
    getSpecies now net core .jnull s = (.ok none, s) ∧
    getSpecies now net core .jundef s = (.ok none, s) ∧
    (getSpecies now net core (.jnum 42) s).1
      = .error "TypeError: id.trim is not a function" := by
  refine ⟨?_, rfl, rfl, rfl⟩
  simp only [getSpecies]
  rw [if_pos hq]

/-- C6 witness: the whitespace-only id, with a network oracle that would
be observable if consulted. -/
theorem c6_witness :
    getSpecies 0 (fun _ _ => .error "net") [] (.jstr "   ") ⟨[], Faults.noFaults⟩
      = (.ok none, ⟨[], Faults.noFaults⟩) :=
  (c6_guard_amended 0 (fun _ _ => .error "net") [] ⟨[], Faults.noFaults⟩ "   "
    (by decide)).1

/-! ### Claim C9: getPopulation returns the empty list on failure -/

theorem getPopulation_miss (now : Int) (net : NetFn) (idStr : String) (s : St JVal)
    (hid : jsTrim idStr ≠ "")
    (hgf : s.faults.getF (Cache.getCacheKey (populationKey idStr)) = none)
    (hmiss : findVal s.entries (Cache.getCacheKey (populationKey idStr)) = none) :
    getPopulation now net (.jstr idStr) s = popRemote now net idStr s := by
  simp only [getPopulation]
  rw [if_neg hid, get_of_findVal_none now (populationKey idStr) s hgf hmiss]

/-- C9. On a cache miss for `population:{id}`, `getPopulation` returns
the empty list — never anything derived from the bundled dataset — when
the remote fetch fails at the network level, or returns a non-OK status
(304 included), or returns a non-array body; and a store failure while
caching a successful response also yields the empty list. -/
theorem c9_getPopulation_empty_on_failure (now : Int) (net : NetFn) (idStr : String)
    (s : St JVal) (hid : jsTrim idStr ≠ "")
    (hmiss : findVal s.entries (Cache.getCacheKey (populationKey idStr)) = none) :
    (∀ e, s.faults = Faults.noFaults →
       (∀ inm, net ("/api/population/" ++ idStr) inm = .error e) →
       (getPopulation now net (.jstr idStr) s).1 = .ok (.jarr [])) ∧
    (∀ resp, s.faults = Faults.noFaults →
       (∀ inm, net ("/api/population/" ++ idStr) inm = .ok resp) →
       respOk resp = false →
       (getPopulation now net (.jstr idStr) s).1 = .ok (.jarr [])) ∧
    (∀ resp bv, s.faults = Faults.noFaults →
       (∀ inm, net ("/api/population/" ++ idStr) inm = .ok resp) →
       resp.body = .ok bv → jvalIsArr bv = false →
       (getPopulation now net (.jstr idStr) s).1 = .ok (.jarr [])) ∧
    (∀ resp l e, s.faults = ⟨none, fun _ => none,
         (fun k => if k = Cache.getCacheKey (populationKey idStr) then some e else none),
         fun _ => none⟩ →
       (∀ inm, net ("/api/population/" ++ idStr) inm = .ok resp) →
       respOk resp = true → resp.body = .ok (.jarr l) →
       (getPopulation now net (.jstr idStr) s).1 = .ok (.jarr [])) := by
  refine ⟨?_, ?_, ?_, ?_⟩
  · -- network-level failure
    intro e hf hnet
    rw [getPopulation_miss now net idStr s hid (by rw [hf]; rfl) hmiss, popRemote]
    rcases hfet : fetchWithETag now net ("/api/population/" ++ idStr) s with ⟨r, s1⟩
    have hr := fetchWithETag_err now net ("/api/population/" ++ idStr) s e hnet
    rw [hfet] at hr
    simp only at hr
    subst hr
    rfl
  · -- non-OK status (including 304 against an empty cache)
    intro resp hf hnet hnok
    rw [getPopulation_miss now net idStr s hid (by rw [hf]; rfl) hmiss, popRemote]
    rcases hfet : fetchWithETag now net ("/api/population/" ++ idStr) s with ⟨r, s1⟩
    have hr := fetchWithETag_ok now net ("/api/population/" ++ idStr) s resp hnet
      (by rw [hf]; rfl)
    rw [hfet] at hr
    simp only at hr
    subst hr
    simp only
    have hs1f : s1.faults = s.faults := by
      have h := fetchWithETag_faults_eq now net ("/api/population/" ++ idStr) s
      rw [hfet] at h
      exact h
    have hs1m : findVal s1.entries (Cache.getCacheKey (populationKey idStr)) = none := by
      have h := fetchWithETag_entries_other now net ("/api/population/" ++ idStr) s
        (Cache.getCacheKey (populationKey idStr))
        (populationKey_ne_etagKey idStr ("/api/population/" ++ idStr))
      rw [hfet] at h
      rw [h]
      exact hmiss
    by_cases h304 : resp.status = 304
    · rw [if_pos h304,
        get_of_findVal_none now (populationKey idStr) s1 (by rw [hs1f, hf]; rfl) hs1m]
      simp only [popOkCheck]
      rw [if_neg (by rw [hnok]; exact Bool.false_ne_true)]
    · rw [if_neg h304]
      simp only [popOkCheck]
      rw [if_neg (by rw [hnok]; exact Bool.false_ne_true)]
  · -- OK status but non-array body
    intro resp bv hf hnet hbody hnarr
    rw [getPopulation_miss now net idStr s hid (by rw [hf]; rfl) hmiss, popRemote]
    rcases hfet : fetchWithETag now net ("/api/population/" ++ idStr) s with ⟨r, s1⟩
    have hr := fetchWithETag_ok now net ("/api/population/" ++ idStr) s resp hnet
      (by rw [hf]; rfl)
    rw [hfet] at hr
    simp only at hr
    subst hr
    simp only
    have hs1f : s1.faults = s.faults := by
      have h := fetchWithETag_faults_eq now net ("/api/population/" ++ idStr) s
      rw [hfet] at h
      exact h
    have hs1m : findVal s1.entries (Cache.getCacheKey (populationKey idStr)) = none := by
      have h := fetchWithETag_entries_other now net ("/api/population/" ++ idStr) s
        (Cache.getCacheKey (populationKey idStr))
        (populationKey_ne_etagKey idStr ("/api/population/" ++ idStr))
      rw [hfet] at h
      rw [h]
      exact hmiss
    have hcheck : ∀ s2 : St JVal, (popOkCheck now idStr resp s2).1 = .ok (.jarr []) := by
      intro s2
      rw [popOkCheck]
      by_cases hok : respOk resp = true
      · rw [if_pos hok, hbody]
        cases bv with
        | jarr l => exact absurd hnarr (by simp [jvalIsArr])
        | jstr a => rfl
        | jnum a => rfl
        | jbool a => rfl
        | jnull => rfl
        | jundef => rfl
        | jobj a => rfl
      · rw [if_neg hok]
    by_cases h304 : resp.status = 304
    · rw [if_pos h304,
        get_of_findVal_none now (populationKey idStr) s1 (by rw [hs1f, hf]; rfl) hs1m]
      exact hcheck s1
    · rw [if_neg h304]
      exact hcheck s1
  · -- store failure while caching a good response
    intro resp l e hf hnet hok hbody
    have hsetfault : s.faults.setF (Cache.getCacheKey (etagKey ("/api/population/" ++ idStr)))
        = none := by
      rw [hf]
      simp only
      rw [if_neg (Ne.symm (populationKey_ne_etagKey idStr ("/api/population/" ++ idStr)))]
    rw [getPopulation_miss now net idStr s hid (by rw [hf]) hmiss, popRemote]
    rcases hfet : fetchWithETag now net ("/api/population/" ++ idStr) s with ⟨r, s1⟩
    have hr := fetchWithETag_ok now net ("/api/population/" ++ idStr) s resp hnet hsetfault
    rw [hfet] at hr
    simp only at hr
    subst hr
    simp only
    have hs1f : s1.faults = s.faults := by
      have h := fetchWithETag_faults_eq now net ("/api/population/" ++ idStr) s
      rw [hfet] at h
      exact h
    have h304 : resp.status ≠ 304 := by
      simp only [respOk, Bool.and_eq_true, decide_eq_true_eq] at hok
      omega
    rw [if_neg h304]
    rw [popOkCheck, if_pos hok, hbody]
    simp only
    rw [set_err now (populationKey idStr) (JVal.jarr l) ttlPopulation s1 e
      (by rw [hs1f, hf]; simp)]

/-- C9 witness: empty cache and unreachable network — the empty list. -/
theorem c9_witness :
    (getPopulation 0 (fun _ _ => .error "down") (.jstr "orca")
        ⟨[], Faults.noFaults⟩).1 = .ok (.jarr []) :=
  (c9_getPopulation_empty_on_failure 0 (fun _ _ => .error "down") "orca"
      ⟨[], Faults.noFaults⟩ (by decide) rfl).1 "down" rfl (fun _ => rfl)

/-! ### Claim C8: search merges local-first with deduplicated remote -/

theorem mergeLoop_eq_filter (ids : List String) : ∀ (rem : List JVal),
    mergeLoop ids rem = rem.filter (fun sp => !(ids.contains (speciesId sp))) := by
  intro rem
  induction rem with
  | nil => rfl
  | cons sp rest ih =>
    rw [mergeLoop, List.filter_cons]
    by_cases hm : ids.contains (speciesId sp) = true
    · rw [if_pos hm, if_neg (by rw [hm]; decide), ih]
    · have hm' : ids.contains (speciesId sp) = false := by
        simpa using hm
      rw [if_neg hm, if_pos (by rw [hm']; decide), ih]

/-- C8. On a cache miss with a successful remote fetch returning a valid
all-species array body, `search(q)` returns the local fuzzy results first,
in order, followed by exactly those remote results whose identifier is
not already present among the local results; and in general
`mergeSearchResults` equals local followed by the id-filtered remote (the
local record wins id ties). -/
theorem c8_search_merge (now : Int) (net : NetFn) (core : List JVal) (q : String)
    (s : St JVal) (resp : Resp) (remote : List JVal)
    (hq : jsTrim q ≠ "")
    (hf : s.faults = Faults.noFaults)
    (hmiss : findVal s.entries (Cache.getCacheKey (searchKey q)) = none)
    (hnet : ∀ inm, net ("/api/search?q=" ++ q) inm = .ok resp)
    (hok : respOk resp = true)
    (hbody : resp.body = .ok (.jarr remote))
    (hall : remote.all isSpecies = true) :
    (search now net core (.jstr q) s).1
      = .ok (.jarr (fuzzySearchPreload q core ++
          remote.filter (fun sp =>
            !(((fuzzySearchPreload q core).map speciesId).contains (speciesId sp))))) ∧
    ∀ (loc rem : List JVal), mergeSearchResults loc rem
        = loc ++ rem.filter (fun sp => !((loc.map speciesId).contains (speciesId sp))) := by
  have hmerge : ∀ (loc rem : List JVal), mergeSearchResults loc rem
      = loc ++ rem.filter (fun sp => !((loc.map speciesId).contains (speciesId sp))) :=
    fun loc rem => by rw [mergeSearchResults, mergeLoop_eq_filter]
  refine ⟨?_, hmerge⟩
  simp only [search]
  rw [if_neg hq, get_of_findVal_none now (searchKey q) s (by rw [hf]; rfl) hmiss]
  simp only [searchRemote]
  rcases hfet : fetchWithETag now net ("/api/search?q=" ++ q) s with ⟨r, s1⟩
  have hr := fetchWithETag_ok now net ("/api/search?q=" ++ q) s resp hnet
    (by rw [hf]; rfl)
  rw [hfet] at hr
  simp only at hr
  subst hr
  simp only
  have hs1f : s1.faults = s.faults := by
    have h := fetchWithETag_faults_eq now net ("/api/search?q=" ++ q) s
    rw [hfet] at h
    exact h
  have h304 : resp.status ≠ 304 := by
    simp only [respOk, Bool.and_eq_true, decide_eq_true_eq] at hok
    omega
  rw [if_neg h304]
  rw [searchOkCheck, if_pos hok, hbody]
  simp only
  rw [if_pos hall]
  rw [set_ok now (searchKey q)
    (JVal.jarr (mergeSearchResults (fuzzySearchPreload q core) remote)) ttlSearch s1
    (by rw [hs1f, hf]; rfl)]
  simp only
  rw [hmerge]

/-- C8 witness: one bundled otter record matching the query, one remote
list holding a duplicate of it plus a new valid record; the merge keeps
the local record first and appends only the new remote record. -/
theorem c8_witness :
    (search 0
        (fun _ _ => .ok ⟨200, none, .ok (.jarr
          [.jobj [("id", .jstr "otter"), ("name", .jstr "Otter2"),
                  ("endangerment", .jstr "EN"),
                  ("bullets", .jobj [("habitat", .jstr "x"), ("diet", .jstr "y"),
                                     ("personality", .jstr "z")]),
                  ("photoURLs", .jarr [.jstr "p.jpg"])],
           .jobj [("id", .jstr "seal"), ("name", .jstr "Seal"),
                  ("endangerment", .jstr "LC"),
                  ("bullets", .jobj [("habitat", .jstr "x"), ("diet", .jstr "y"),
                                     ("personality", .jstr "z")]),
                  ("photoURLs", .jarr [.jstr "s.jpg"])]])⟩)
        [.jobj [("id", .jstr "otter"), ("name", .jstr "Otter"),
                ("endangerment", .jstr "LC"),
                ("bullets", .jobj [("habitat", .jstr "river"), ("diet", .jstr "fish"),
                                   ("personality", .jstr "playful")]),
                ("photoURLs", .jarr [.jstr "o.jpg"])]]
        (.jstr "otter") ⟨[], Faults.noFaults⟩).1
      = .ok (.jarr
          [.jobj [("id", .jstr "otter"), ("name", .jstr "Otter"),
                  ("endangerment", .jstr "LC"),
                  ("bullets", .jobj [("habitat", .jstr "river"), ("diet", .jstr "fish"),
                                     ("personality", .jstr "playful")]),
                  ("photoURLs", .jarr [.jstr "o.jpg"])],
           .jobj [("id", .jstr "seal"), ("name", .jstr "Seal"),
                  ("endangerment", .jstr "LC"),
                  ("bullets", .jobj [("habitat", .jstr "x"), ("diet", .jstr "y"),
                                     ("personality", .jstr "z")]),
                  ("photoURLs", .jarr [.jstr "s.jpg"])]]) := by
  have h := c8_search_merge 0
      (fun _ _ => .ok ⟨200, none, .ok (.jarr
        [.jobj [("id", .jstr "otter"), ("name", .jstr "Otter2"),
                ("endangerment", .jstr "EN"),
                ("bullets", .jobj [("habitat", .jstr "x"), ("diet", .jstr "y"),
                                   ("personality", .jstr "z")]),
                ("photoURLs", .jarr [.jstr "p.jpg"])],
         .jobj [("id", .jstr "seal"), ("name", .jstr "Seal"),
                ("endangerment", .jstr "LC"),
                ("bullets", .jobj [("habitat", .jstr "x"), ("diet", .jstr "y"),
                                   ("personality", .jstr "z")]),
                ("photoURLs", .jarr [.jstr "s.jpg"])]])⟩)
      [.jobj [("id", .jstr "otter"), ("name", .jstr "Otter"),
              ("endangerment", .jstr "LC"),
              ("bullets", .jobj [("habitat", .jstr "river"), ("diet", .jstr "fish"),
                                 ("personality", .jstr "playful")]),
              ("photoURLs", .jarr [.jstr "o.jpg"])]]
      "otter" ⟨[], Faults.noFaults⟩
      ⟨200, none, .ok (.jarr
        [.jobj [("id", .jstr "otter"), ("name", .jstr "Otter2"),
                ("endangerment", .jstr "EN"),
                ("bullets", .jobj [("habitat", .jstr "x"), ("diet", .jstr "y"),
                                   ("personality", .jstr "z")]),
                ("photoURLs", .jarr [.jstr "p.jpg"])],
         .jobj [("id", .jstr "seal"), ("name", .jstr "Seal"),
                ("endangerment", .jstr "LC"),
                ("bullets", .jobj [("habitat", .jstr "x"), ("diet", .jstr "y"),
                                   ("personality", .jstr "z")]),
                ("photoURLs", .jarr [.jstr "s.jpg"])]])⟩
      [.jobj [("id", .jstr "otter"), ("name", .jstr "Otter2"),
              ("endangerment", .jstr "EN"),
              ("bullets", .jobj [("habitat", .jstr "x"), ("diet", .jstr "y"),
                                 ("personality", .jstr "z")]),
              ("photoURLs", .jarr [.jstr "p.jpg"])],
       .jobj [("id", .jstr "seal"), ("name", .jstr "Seal"),
              ("endangerment", .jstr "LC"),
              ("bullets", .jobj [("habitat", .jstr "x"), ("diet", .jstr "y"),
                                 ("personality", .jstr "z")]),
              ("photoURLs", .jarr [.jstr "s.jpg"])]]
      (by decide) rfl rfl (fun _ => rfl) rfl rfl (by decide)
  rw [h.1]
  rfl

/-! ### Claim C5: getSpecies caches the bundled fallback -/

theorem jvalTruthy_of_isSpecies (v : JVal) (h : isSpecies v = true) :
    jvalTruthy v = true := by
  cases v with
  | jobj fields => rfl
  | jstr a => exact absurd h (by simp [isSpecies])
  | jnum a => exact absurd h (by simp [isSpecies])
  | jbool a => exact absurd h (by simp [isSpecies])
  | jnull => exact absurd h (by simp [isSpecies])
  | jundef => exact absurd h (by simp [isSpecies])
  | jarr a => exact absurd h (by simp [isSpecies])

/-- C5. With no cached entry under `species:{id}`, a remote fetch
resolving to HTTP 200 with a body that fails species validation, and `id`
present in the bundled dataset (as a validated record), `getSpecies(id)`
returns the bundled record, writes it to the cache under `species:{id}`
with the 24-hour TTL, and a subsequent cache lookup within that TTL
returns the same bundled record. -/
theorem c5_getSpecies_bundled_fallback (now : Int) (net : NetFn) (core : List JVal)
    (idStr : String) (s : St JVal) (resp : Resp) (body rec : JVal)
    (hid : jsTrim idStr ≠ "")
    (hf : s.faults = Faults.noFaults)
    (hmiss : findVal s.entries (Cache.getCacheKey (speciesKey idStr)) = none)
    (hnet : ∀ inm, net ("/api/species/" ++ idStr) inm = .ok resp)
    (hstatus : resp.status = 200)
    (hbody : resp.body = .ok body)
    (hbad : isSpecies body = false)
    (hcore : getCoreSpeciesById idStr core = some rec)
    (hrec : isSpecies rec = true) :
    (getSpecies now net core (.jstr idStr) s).1 = .ok (some rec) ∧
    findVal (getSpecies now net core (.jstr idStr) s).2.entries
        (Cache.getCacheKey (speciesKey idStr))
      = some ⟨rec, now + ttlSpecies, now⟩ ∧
    (∀ t1, t1 - now < ttlSpecies →
      (Cache.get t1 (speciesKey idStr) (getSpecies now net core (.jstr idStr) s).2).1
        = some rec) := by
  have hgu : getSpecies now net core (.jstr idStr) s
      = speciesRemote now net core idStr s := by
    simp only [getSpecies]
    rw [if_neg hid, get_of_findVal_none now (speciesKey idStr) s (by rw [hf]; rfl) hmiss]
  rw [hgu]
  rw [speciesRemote]
  rcases hfet : fetchWithETag now net ("/api/species/" ++ idStr) s with ⟨r, s1⟩
  have hr := fetchWithETag_ok now net ("/api/species/" ++ idStr) s resp hnet
    (by rw [hf]; rfl)
  rw [hfet] at hr
  simp only at hr
  subst hr
  simp only
  have hs1f : s1.faults = s.faults := by
    have h := fetchWithETag_faults_eq now net ("/api/species/" ++ idStr) s
    rw [hfet] at h
    exact h
  have h304 : resp.status ≠ 304 := by
    rw [hstatus]
    decide
  have hok : respOk resp = true := by
    rw [respOk, hstatus]
    decide
  rw [if_neg h304]
  rw [speciesOkCheck, if_pos hok, hbody]
  simp only
  rw [if_neg (by rw [hbad]; exact Bool.false_ne_true)]
  rw [speciesFallback, hcore]
  simp only
  rw [if_pos (jvalTruthy_of_isSpecies rec hrec)]
  rw [set_ok now (speciesKey idStr) rec ttlSpecies s1 (by rw [hs1f, hf]; rfl)]
  simp only
  refine ⟨trivial, findVal_putKey_self _ _ _, ?_⟩
  intro t1 ht1
  have hg := get_of_live t1 (speciesKey idStr)
      { s1 with entries := putKey s1.entries (Cache.getCacheKey (speciesKey idStr)) ⟨rec, now + ttlSpecies, now⟩ }
      ⟨rec, now + ttlSpecies, now⟩
      (by rw [hs1f, hf]; rfl) (by rw [hs1f, hf]; rfl)
      (findVal_putKey_self _ _ _)
      (by simp only; omega)
  rw [hg]

/-- C5 witness: empty cache, a 200 response whose body is an empty object
(fails validation), and a valid bundled record for the id; the bundled
record is returned and a later in-TTL lookup hits the cached copy. -/
theorem c5_witness :
    (getSpecies 0 (fun _ _ => .ok ⟨200, none, .ok (.jobj [])⟩)
        [.jobj [("id", .jstr "oct"), ("name", .jstr "Octopus"),
                ("endangerment", .jstr "LC"),
                ("bullets", .jobj [("habitat", .jstr "sea"), ("diet", .jstr "crabs"),
                                   ("personality", .jstr "shy")]),
                ("photoURLs", .jarr [.jstr "o.jpg"])]]
        (.jstr "oct") ⟨[], Faults.noFaults⟩).1
      = .ok (some (.jobj [("id", .jstr "oct"), ("name", .jstr "Octopus"),
                ("endangerment", .jstr "LC"),
                ("bullets", .jobj [("habitat", .jstr "sea"), ("diet", .jstr "crabs"),
                                   ("personality", .jstr "shy")]),
                ("photoURLs", .jarr [.jstr "o.jpg"])])) ∧
    (Cache.get 1000 "species:oct"
        (getSpecies 0 (fun _ _ => .ok ⟨200, none, .ok (.jobj [])⟩)
          [.jobj [("id", .jstr "oct"), ("name", .jstr "Octopus"),
                  ("endangerment", .jstr "LC"),
                  ("bullets", .jobj [("habitat", .jstr "sea"), ("diet", .jstr "crabs"),
                                     ("personality", .jstr "shy")]),
                  ("photoURLs", .jarr [.jstr "o.jpg"])]]
          (.jstr "oct") ⟨[], Faults.noFaults⟩).2).1
      = some (.jobj [("id", .jstr "oct"), ("name", .jstr "Octopus"),
                ("endangerment", .jstr "LC"),
                ("bullets", .jobj [("habitat", .jstr "sea"), ("diet", .jstr "crabs"),
                                   ("personality", .jstr "shy")]),
                ("photoURLs", .jarr [.jstr "o.jpg"])]) := by
  have h := c5_getSpecies_bundled_fallback 0
      (fun _ _ => .ok ⟨200, none, .ok (.jobj [])⟩)
      [.jobj [("id", .jstr "oct"), ("name", .jstr "Octopus"),
              ("endangerment", .jstr "LC"),
              ("bullets", .jobj [("habitat", .jstr "sea"), ("diet", .jstr "crabs"),
                                 ("personality", .jstr "shy")]),
              ("photoURLs", .jarr [.jstr "o.jpg"])]]
      "oct" ⟨[], Faults.noFaults⟩ ⟨200, none, .ok (.jobj [])⟩ (.jobj [])
      (.jobj [("id", .jstr "oct"), ("name", .jstr "Octopus"),
              ("endangerment", .jstr "LC"),
              ("bullets", .jobj [("habitat", .jstr "sea"), ("diet", .jstr "crabs"),
                                 ("personality", .jstr "shy")]),
              ("photoURLs", .jarr [.jstr "o.jpg"])])
      (by decide) rfl rfl (fun _ => rfl) rfl rfl (by decide) rfl (by decide)
  exact ⟨h.1, h.2.2 1000 (by decide)⟩

end SeaHere
